import Mathlib

/-!
Verification of the coefficient-coding core of a lossless JPEG recompressor.

The Lean definitions below are shallow embeddings of the Rust sources in
`src/structs/`: machine integers become `Nat`/`Int` with explicit wrapping
(`% 2 ^ w`) at the points where the Rust operation can wrap, fallible code
returns `Option`/`Except`, and a Rust panic is modelled as an explicit
error value.  Theorems at the end settle the specification claims.
-/

/-- Wraps an integer into the two's-complement range of a `w`-bit signed
machine integer, the semantics of an `as i16` / `as i32` cast in Rust. -/
def wrapI (w : ℕ) (x : ℤ) : ℤ := (x + 2 ^ (w - 1)) % 2 ^ w - 2 ^ (w - 1)

/-- Reinterpretation of an `i32` value as a 64-bit `usize` (Rust `as usize`):
negative values sign-extend and wrap to large naturals. -/
def usizeOfI32 (x : ℤ) : ℕ := (x % 2 ^ 64).toNat

/-- Reinterpretation of a `usize` length as an `i32` (Rust `as i32`). -/
def i32cast (n : ℕ) : ℤ := wrapI 32 (n : ℤ)

/-- `u32::leading_zeros`: the number of leading zero bits of a 32-bit value. -/
def leadingZeros32 (x : ℕ) : ℕ := 32 - Nat.size x

/-- Embedding of `problookup` from `branch.rs`: entry `i` of the 65536-entry
probability table.  Index 0 is left at the array-initialisation value 0; for
`i ≥ 1` the table holds `((a << 8) / (a + b)) as u8` with `a = i >> 8` and
`b = i & 0xff`. -/
def problookup (i : ℕ) : ℕ :=
  if i = 0 then 0
  else (((i >>> 8) <<< 8) / ((i >>> 8) + (i &&& 0xff))) % 256

/-- Embedding of `Branch` from `branch.rs`: a 16-bit packed pair of counts,
false count in the high byte, true count in the low byte. -/
structure Branch where
  counts : ℕ
deriving DecidableEq, Repr

/-- `Branch::new`, the fresh state `0x0101`. -/
def Branch.new : Branch := ⟨0x0101⟩

/-- `Branch::get_probability`: the table lookup. -/
def Branch.get_probability (b : Branch) : ℕ := problookup b.counts

/-- `Branch::record_and_update_true_obs` from `branch.rs`. -/
def Branch.record_and_update_true_obs (b : Branch) : Branch :=
  if b.counts &&& 0xff ≠ 0xff then
    ⟨(b.counts + 1) % 2 ^ 16⟩
  else if b.counts ≤ 0x1ff then
    ⟨0xff⟩
  else
    ⟨((b.counts + 0x100) >>> 1) &&& 0xff00 ||| 129⟩

/-- `Branch::record_and_update_false_obs` from `branch.rs`; the guard is the
wrapping-`u16` comparison `counts.wrapping_sub(0x100) < 0xfe00`. -/
def Branch.record_and_update_false_obs (b : Branch) : Branch :=
  if (b.counts + 2 ^ 16 - 0x100) % 2 ^ 16 < 0xfe00 then
    ⟨(b.counts + 0x100) % 2 ^ 16⟩
  else if b.counts = 0xff then
    ⟨0x2ff⟩
  else if b.counts ≠ 0xff01 then
    ⟨((b.counts + 0x301) >>> 1) % 2 ^ 16⟩
  else
    b

/-- Modelled from the spec: `Branch::record_and_update_bit` (called by
`vpx_bool_reader.rs` but not itself part of the sources under `src/`)
dispatches to the true/false observation update according to the bit. -/
def Branch.record_and_update_bit (b : Branch) (bit : Bool) : Branch :=
  if bit then b.record_and_update_true_obs else b.record_and_update_false_obs

/- ### Arithmetic helper lemmas -/

theorem lor_shiftLeft_add (a b k : ℕ) (hb : b < 2 ^ k) :
    (a <<< k) ||| b = a * 2 ^ k + b := by
  have hcomm : a * 2 ^ k + b = 2 ^ k * a + b := by ring
  apply Nat.eq_of_testBit_eq
  intro i
  rw [hcomm, Nat.testBit_lor, Nat.testBit_shiftLeft, Nat.testBit_mul_pow_two_add a hb]
  by_cases h : i < k
  · simp [h, Nat.not_le_of_lt h]
  · have hk : k ≤ i := Nat.le_of_not_lt h
    have hbz : b.testBit i = false :=
      Nat.testBit_lt_two_pow (Nat.lt_of_lt_of_le hb (Nat.pow_le_pow_right (by norm_num) hk))
    simp [h, hk, hbz]

theorem and_mask_hi32 (x : ℕ) (hx : x < 2 ^ 32) :
    x &&& 0xFF000000 = (x >>> 24) <<< 24 := by
  have hmask : (0xFF000000 : ℕ) = (2 ^ 8 - 1) <<< 24 := by decide
  apply Nat.eq_of_testBit_eq
  intro i
  rw [hmask, Nat.testBit_land, Nat.testBit_shiftLeft, Nat.testBit_shiftLeft,
    Nat.testBit_two_pow_sub_one, Nat.testBit_shiftRight]
  by_cases h24 : 24 ≤ i
  · by_cases h32 : i < 32
    · have : i - 24 < 8 := by omega
      have : 24 + (i - 24) = i := by omega
      simp_all
    · have hxz : x.testBit i = false :=
        Nat.testBit_lt_two_pow
          (Nat.lt_of_lt_of_le hx (Nat.pow_le_pow_right (by norm_num) (by omega)))
      have h24' : 24 + (i - 24) = i := by omega
      simp [h24, h24', hxz]
  · simp [h24]

theorem div_lt_of_lt_mul' {a b c : ℕ} (h : a < c * b) : a / c < b :=
  Nat.div_lt_of_lt_mul (by omega)

/- ### C2: the probability formula -/

/-- C2: for every Branch state `counts = (F << 8) | T` with false count
`F ∈ [1,255]` and true count `T ∈ [1,255]`, `get_probability` returns
`(F << 8) / (F + T)` (integer division), and for the sentinel state `0x00FF`
it returns 0. -/
theorem branch_probability_formula (F T : ℕ)
    (hF1 : 1 ≤ F) (hF2 : F ≤ 255) (hT1 : 1 ≤ T) (hT2 : T ≤ 255) :
    Branch.get_probability ⟨(F <<< 8) ||| T⟩ = (F <<< 8) / (F + T) ∧
      Branch.get_probability ⟨0x00ff⟩ = 0 := by
  constructor
  · have hT256 : T < 2 ^ 8 := by omega
    have hcounts : (F <<< 8) ||| T = F * 256 + T := by
      have := lor_shiftLeft_add F T 8 hT256
      simpa using this
    have hne : F * 256 + T ≠ 0 := by omega
    have hhi : (F * 256 + T) >>> 8 = F := by
      rw [Nat.shiftRight_eq_div_pow]
      omega
    have hlo : (F * 256 + T) &&& 0xff = T := by
      have h255 : (0xff : ℕ) = 2 ^ 8 - 1 := by norm_num
      rw [h255, Nat.and_pow_two_sub_one_eq_mod]
      omega
    rw [Branch.get_probability, hcounts, problookup, if_neg hne, hhi, hlo]
    have hdivlt : F <<< 8 / (F + T) < 256 := by
      rw [Nat.shiftLeft_eq]
      apply div_lt_of_lt_mul'
      have : F * 2 ^ 8 < (F + T) * 256 := by omega
      omega
    rw [Nat.shiftLeft_eq] at hdivlt ⊢
    simp [Nat.mod_eq_of_lt hdivlt]
  · decide

/-- Witness for C2 at `F = T = 1`: the fresh state `0x0101` has
probability `256 / 2 = 128`. -/
theorem branch_probability_formula_witness :
    (1 ≤ 1 ∧ 1 ≤ 255) ∧
      (Branch.get_probability ⟨(1 <<< 8) ||| 1⟩ = (1 <<< 8) / (1 + 1) ∧
        Branch.get_probability ⟨0x00ff⟩ = 0) :=
  ⟨by decide, branch_probability_formula 1 1 (by decide) (by decide) (by decide) (by decide)⟩

/- ### C4: the sentinel corner case -/

/-- C4: starting from the Branch state with 255 recorded trues and 1 recorded
false — packed counts `0x01FF`, written `(255, 1)` in true/false order as in
the corner-case description in `branch.rs` — one true observation enters the
sentinel `0x00FF` with probability 0, and a following false observation moves
to `0x02FF` with probability `(2 << 8) / (2 + 255) = 1`. -/
theorem branch_sentinel_transition :
    Branch.record_and_update_true_obs ⟨0x01ff⟩ = ⟨0x00ff⟩ ∧
      Branch.get_probability ⟨0x00ff⟩ = 0 ∧
      Branch.record_and_update_false_obs ⟨0x00ff⟩ = ⟨0x02ff⟩ ∧
      Branch.get_probability ⟨0x02ff⟩ = 1 ∧
      (2 <<< 8) / (2 + 255) = 1 := by
  refine ⟨by decide, by decide, by decide, by decide, by decide⟩

/- ### VPXBoolReader (vpx_bool_reader.rs) -/

/-- Embedding of the `VPXBoolReader` state: the 32-bit `value` and `range`
registers, the signed bit `count`, and the remaining upstream byte stream. -/
structure VPXBoolReader where
  value : ℕ
  range : ℕ
  count : ℤ
  upstream : List ℕ
deriving DecidableEq, Repr

/-- The byte loop of `vpx_reader_fill`: while `shift ≥ 0`, read one byte
(breaking at end of stream), or it into `value` at bit offset `shift`,
decrease `shift` by 8 and increase `count` by 8. -/
def vpxReaderFillLoop (shift : ℤ) (value : ℕ) (count : ℤ) (bytes : List ℕ) :
    ℕ × ℤ × List ℕ :=
  if 0 ≤ shift then
    match bytes with
    | [] => (value, count, [])
    | b :: rest =>
      vpxReaderFillLoop (shift - 8) (value ||| (b <<< shift.toNat) % 2 ^ 32)
        (count + 8) rest
  else (value, count, bytes)
termination_by bytes.length

/-- `vpx_reader_fill`: the initial shift is
`BITS_IN_VALUE_MINUS_LAST_BYTE - (count + BITS_IN_BYTE) = 24 - (count + 8)`. -/
def vpxReaderFill (value : ℕ) (count : ℤ) (bytes : List ℕ) : ℕ × ℤ × List ℕ :=
  vpxReaderFillLoop (24 - (count + 8)) value count bytes

/-- The split computation of `VPXBoolReader::get`:
`((range >> 8) * probability + ((256 - probability) << 16)) & 0xFF000000`
in wrapping `u32` arithmetic. -/
def computeSplit (range probability : ℕ) : ℕ :=
  ((range >>> 8) * probability + (256 - probability) <<< 16) % 2 ^ 32 &&& 0xFF000000

/-- Embedding of `VPXBoolReader::get`: returns the decoded bit, the new
reader state and the updated Branch. -/
def VPXBoolReader.get (r : VPXBoolReader) (branch : Branch) :
    Bool × VPXBoolReader × Branch :=
  let f := if r.count < 0 then vpxReaderFill r.value r.count r.upstream
           else (r.value, r.count, r.upstream)
  let tmpValue := f.1
  let tmpCount := f.2.1
  let upstream := f.2.2
  let probability := branch.get_probability
  let split := computeSplit r.range probability
  let bit := decide (tmpValue ≥ split)
  let branch' := branch.record_and_update_bit bit
  let tmpRange := if bit then (r.range + 2 ^ 32 - split) % 2 ^ 32 else split
  let tmpValue' := if bit then (tmpValue + 2 ^ 32 - split) % 2 ^ 32 else tmpValue
  let shift := leadingZeros32 tmpRange
  (bit,
    ⟨(tmpValue' <<< shift) % 2 ^ 32, (tmpRange <<< shift) % 2 ^ 32,
      tmpCount - shift, upstream⟩,
    branch')

theorem get_probability_lt (b : Branch) : b.get_probability < 256 := by
  unfold Branch.get_probability problookup
  split
  · norm_num
  · exact Nat.mod_lt _ (by norm_num)

theorem computeSplit_eq (r p : ℕ) (hr1 : 128 ≤ r) (hr2 : r ≤ 255) (hp : p ≤ 255) :
    computeSplit (r <<< 24) p = (1 + (r - 1) * p / 2 ^ 8) * 2 ^ 24 ∧
      ((r <<< 24) >>> 8) * p + (256 - p) <<< 16 < 2 ^ 32 ∧
      1 + (r - 1) * p / 2 ^ 8 ≤ r - 1 := by
  have hsh : (r <<< 24) >>> 8 = r * 2 ^ 16 := by
    rw [Nat.shiftLeft_eq, Nat.shiftRight_eq_div_pow]
    have : r * 2 ^ 24 = r * 2 ^ 16 * 2 ^ 8 := by ring
    rw [this, Nat.mul_div_cancel _ (by norm_num)]
  have hmul : (r - 1) * p = r * p - p := by
    rw [Nat.sub_mul, Nat.one_mul]
  have hple : p ≤ r * p := Nat.le_mul_of_pos_left p (by omega)
  have hX : r * 2 ^ 16 * p + (256 - p) <<< 16 = ((r - 1) * p + 256) * 2 ^ 16 := by
    rw [Nat.shiftLeft_eq, hmul, Nat.sub_mul, Nat.add_mul]
    have e1 : r * 2 ^ 16 * p = r * p * 2 ^ 16 := by ring
    omega
  have hsbound : (r - 1) * p ≤ 64770 := by
    calc (r - 1) * p ≤ 254 * 255 := Nat.mul_le_mul (by omega) hp
    _ = 64770 := by norm_num
  have hXlt : ((r - 1) * p + 256) * 2 ^ 16 < 2 ^ 32 := by omega
  have hdiv : ((r - 1) * p + 256) * 2 ^ 16 / 2 ^ 24 = (r - 1) * p / 2 ^ 8 + 1 := by
    have e16 : (2 : ℕ) ^ 16 = 65536 := by norm_num
    have e24 : (2 : ℕ) ^ 24 = 16777216 := by norm_num
    have e8 : (2 : ℕ) ^ 8 = 256 := by norm_num
    rw [e16, e24, e8]
    omega
  refine ⟨?_, ?_, ?_⟩
  · rw [computeSplit, hsh, hX, Nat.mod_eq_of_lt hXlt, and_mask_hi32 _ hXlt,
      Nat.shiftRight_eq_div_pow, hdiv, Nat.shiftLeft_eq]
    ring
  · rw [hsh, hX]
    exact hXlt
  · have h255 : (r - 1) * p ≤ 255 * (r - 1) := by
      calc (r - 1) * p ≤ (r - 1) * 255 := Nat.mul_le_mul_left _ hp
      _ = 255 * (r - 1) := by ring
    have := Nat.div_le_div_right (c := 2 ^ 8) h255
    omega

theorem shiftLeft_leadingZeros_lt (x : ℕ) (h1 : 0 < x) (h2 : x < 2 ^ 32) :
    x <<< leadingZeros32 x < 2 ^ 32 := by
  rw [Nat.shiftLeft_eq, leadingZeros32]
  have hs : Nat.size x ≤ 32 := Nat.size_le.mpr h2
  have hx : x < 2 ^ Nat.size x := Nat.lt_size_self x
  calc x * 2 ^ (32 - Nat.size x)
      < 2 ^ Nat.size x * 2 ^ (32 - Nat.size x) :=
        Nat.mul_lt_mul_of_lt_of_le hx (Nat.le_refl _) (Nat.two_pow_pos _)
    _ = 2 ^ 32 := by rw [← Nat.pow_add]; congr 1; omega

/- ### C1: one decode step of VPXBoolReader::get -/

/-- C1: on a reader state `(value, range, count)` with `count ≥ 0` (no refill)
and `range` holding its documented invariant shape `r << 24`, `128 ≤ r ≤ 255`,
a call to `get` computes `split = ((range >> 8) * p + ((256 - p) << 16)) &
0xFF000000`, returns `bit = (value ≥ split)`, moves to `(range - split,
value - split)` on a true bit and to `range = split` on a false bit, then
shifts `value` and the updated `range` left by `shift = leading_zeros(range)`
(in the 32-bit registers), decreases `count` by `shift`, and updates the
Branch with the returned bit. -/
theorem vpx_get_step (value r : ℕ) (count : ℤ) (bytes : List ℕ) (b : Branch)
    (hv : value < 2 ^ 32) (hr1 : 128 ≤ r) (hr2 : r ≤ 255) (hc : 0 ≤ count) :
    VPXBoolReader.get ⟨value, r <<< 24, count, bytes⟩ b =
      (let p := b.get_probability
       let split := (((r <<< 24) >>> 8) * p + (256 - p) <<< 16) &&& 0xFF000000
       let bit := decide (value ≥ split)
       let range' := if bit then r <<< 24 - split else split
       let value' := if bit then value - split else value
       let shift := leadingZeros32 range'
       (bit,
         ⟨(value' <<< shift) % 2 ^ 32, range' <<< shift, count - shift, bytes⟩,
         b.record_and_update_bit bit)) := by
  have hp : b.get_probability ≤ 255 := Nat.lt_succ_iff.mp (get_probability_lt b)
  obtain ⟨hsplit, hpre, hs⟩ := computeSplit_eq r b.get_probability hr1 hr2 hp
  have hrpow : r <<< 24 = r * 2 ^ 24 := Nat.shiftLeft_eq r 24
  have hspec : (((r <<< 24) >>> 8) * b.get_probability +
      (256 - b.get_probability) <<< 16) &&& 0xFF000000
      = computeSplit (r <<< 24) b.get_probability := by
    rw [computeSplit, Nat.mod_eq_of_lt hpre]
  have hsle : computeSplit (r <<< 24) b.get_probability ≤ (r - 1) * 2 ^ 24 := by
    rw [hsplit]
    exact Nat.mul_le_mul_right _ hs
  have hsge : 2 ^ 24 ≤ computeSplit (r <<< 24) b.get_probability := by
    rw [hsplit]
    have : 1 ≤ 1 + (r - 1) * b.get_probability / 2 ^ 8 := by omega
    calc (2 : ℕ) ^ 24 = 1 * 2 ^ 24 := by ring
    _ ≤ (1 + (r - 1) * b.get_probability / 2 ^ 8) * 2 ^ 24 :=
        Nat.mul_le_mul_right _ this
  rw [VPXBoolReader.get]
  simp only [hspec, not_lt.mpr hc, if_false, ge_iff_le]
  by_cases hbit : computeSplit (r <<< 24) b.get_probability ≤ value
  · have hvwrap : (value + 2 ^ 32 - computeSplit (r <<< 24) b.get_probability) % 2 ^ 32
        = value - computeSplit (r <<< 24) b.get_probability := by
      omega
    have hrwrap : (r <<< 24 + 2 ^ 32 - computeSplit (r <<< 24) b.get_probability) % 2 ^ 32
        = r <<< 24 - computeSplit (r <<< 24) b.get_probability := by
      omega
    have hrpos : 0 < r <<< 24 - computeSplit (r <<< 24) b.get_probability := by
      omega
    have hrlt : r <<< 24 - computeSplit (r <<< 24) b.get_probability < 2 ^ 32 := by
      omega
    have hnomod := Nat.mod_eq_of_lt (shiftLeft_leadingZeros_lt _ hrpos hrlt)
    simp only [hvwrap, hrwrap] at hnomod ⊢
    simp [hbit, hvwrap, hrwrap, hnomod]
    omega
  · have hspos : 0 < computeSplit (r <<< 24) b.get_probability := by omega
    have hslt : computeSplit (r <<< 24) b.get_probability < 2 ^ 32 := by
      have : (r - 1) * 2 ^ 24 < 2 ^ 32 := by omega
      omega
    have hnomod := Nat.mod_eq_of_lt (shiftLeft_leadingZeros_lt _ hspos hslt)
    simp [hbit, hnomod]
    omega

/-- Witness for C1: a concrete step on a fresh reader and fresh Branch. -/
theorem vpx_get_step_witness :
    ((0 : ℕ) < 2 ^ 32 ∧ 128 ≤ 255 ∧ (0 : ℤ) ≤ 0) ∧
      VPXBoolReader.get ⟨0, 255 <<< 24, 0, []⟩ ⟨0x0101⟩ =
        (let p := Branch.get_probability ⟨0x0101⟩
         let split := (((255 <<< 24) >>> 8) * p + (256 - p) <<< 16) &&& 0xFF000000
         let bit := decide (0 ≥ split)
         let range' := if bit then 255 <<< 24 - split else split
         let value' := if bit then 0 - split else 0
         let shift := leadingZeros32 range'
         (bit,
           ⟨(value' <<< shift) % 2 ^ 32, range' <<< shift, 0 - (shift : ℤ), []⟩,
           Branch.record_and_update_bit ⟨0x0101⟩ bit)) :=
  ⟨by decide, vpx_get_step 0 255 0 [] ⟨0x0101⟩ (by decide) (by decide) (by decide)
    (by decide)⟩

/- ### C10: the optimized split equals the naive VP8 split -/

/-- The naive VP8 split formula, stated on the logical 8-bit range top byte
`r` as in the source's reference comment:
`(1 + (((range - 1) * probability) >> 8)) << 24`. -/
def vp8NaiveSplit (r p : ℕ) : ℕ := (1 + ((r - 1) * p) >>> 8) <<< 24

/-- C10: for every probability `p ∈ [0,255]` and reader range `r << 24` with
`r ∈ [128,255]`, the optimized masked split equals the naive VP8 formula
`(1 + (((r - 1) * p) >> 8)) << 24`, and neither computation overflows 32
bits. -/
theorem computeSplit_refines_naive (p r : ℕ)
    (hp : p ≤ 255) (hr1 : 128 ≤ r) (hr2 : r ≤ 255) :
    computeSplit (r <<< 24) p = vp8NaiveSplit r p ∧
      ((r <<< 24) >>> 8) * p + (256 - p) <<< 16 < 2 ^ 32 ∧
      vp8NaiveSplit r p < 2 ^ 32 := by
  obtain ⟨h1, h2, h3⟩ := computeSplit_eq r p hr1 hr2 hp
  have e : vp8NaiveSplit r p = (1 + (r - 1) * p / 2 ^ 8) * 2 ^ 24 := by
    rw [vp8NaiveSplit, Nat.shiftLeft_eq, Nat.shiftRight_eq_div_pow]
  refine ⟨by rw [h1, e], h2, ?_⟩
  rw [e]
  have hb : 1 + (r - 1) * p / 2 ^ 8 ≤ 254 := by omega
  have : (1 + (r - 1) * p / 2 ^ 8) * 2 ^ 24 ≤ 254 * 2 ^ 24 :=
    Nat.mul_le_mul_right _ hb
  omega

/-- Witness for C10 at `p = 128`, `r = 255`. -/
theorem computeSplit_refines_naive_witness :
    ((128 : ℕ) ≤ 255 ∧ (128 : ℕ) ≤ 255 ∧ (255 : ℕ) ≤ 255) ∧
      (computeSplit (255 <<< 24) 128 = vp8NaiveSplit 255 128 ∧
        ((255 <<< 24) >>> 8) * 128 + (256 - 128) <<< 16 < 2 ^ 32 ∧
        vp8NaiveSplit 255 128 < 2 ^ 32) :=
  ⟨by decide, computeSplit_refines_naive 128 255 (by decide) (by decide) (by decide)⟩

/- ### QuantizationTables::recip (quantization_tables.rs) -/

/-- Embedding of `QuantizationTables::recip`: `(2^31 + v - 1) / v` for
`v ≠ 0`, and 0 for `v = 0` (the documented divide-by-zero fallback). -/
def recip (v : ℕ) : ℕ :=
  if v = 0 then 0 else (2 ^ 31 + v - 1) / v

/-- The one residue check per divisor `q` that decides exactness of the
reciprocal-multiplication scheme on `[0, 2^19]`: only inputs congruent to
`q - 1` modulo `q` can overflow the floor, and the largest such input is
`q * ((2^19 + 1) / q) - 1`. -/
def recipCheckOne (q : ℕ) : Bool :=
  decide ((q * ((2 ^ 19 + 1) / q) - 1) * (q * ((2 ^ 31 + q - 1) / q) - 2 ^ 31) < 2 ^ 31)

/-- The residue check over every divisor `q ∈ [lo, lo + n)`, arranged as a
balanced tree (with structural fuel) so that its evaluation by the kernel has
logarithmic depth. -/
def recipCheckTree (fuel : ℕ) (lo n : ℕ) : Bool :=
  match fuel with
  | 0 => decide (n = 0)
  | fuel + 1 =>
    if n = 0 then true
    else if n = 1 then recipCheckOne lo
    else recipCheckTree fuel lo (n / 2) && recipCheckTree fuel (lo + n / 2) (n - n / 2)

theorem recipCheckTree_sound (fuel : ℕ) : ∀ lo n, recipCheckTree fuel lo n = true →
    ∀ q, lo ≤ q → q < lo + n → recipCheckOne q = true := by
  induction fuel with
  | zero =>
    intro lo n h q hq1 hq2
    rw [recipCheckTree, decide_eq_true_eq] at h
    omega
  | succ fuel ih =>
    intro lo n h q hq1 hq2
    rw [recipCheckTree] at h
    by_cases h0 : n = 0
    · omega
    · by_cases h1 : n = 1
      · rw [if_neg h0, if_pos h1] at h
        subst h1
        have hql : q = lo := by omega
        subst hql
        exact h
      · rw [if_neg h0, if_neg h1, Bool.and_eq_true] at h
        obtain ⟨hl, hr⟩ := h
        rcases Nat.lt_or_ge q (lo + n / 2) with hcase | hcase
        · exact ih lo (n / 2) hl q hq1 hcase
        · exact ih (lo + n / 2) (n - n / 2) hr q hcase (by omega)

set_option maxRecDepth 10000 in
theorem recipCheckAll_eq_true : recipCheckTree 14 1 4177 = true := by decide

theorem recip_mul_exact_aux (q i : ℕ) (hq : 0 < q) (hq2 : q ≤ 4177) (hi : i ≤ 2 ^ 19)
    (hchk : (q * ((2 ^ 19 + 1) / q) - 1) * (q * ((2 ^ 31 + q - 1) / q) - 2 ^ 31) < 2 ^ 31) :
    i / q = i * ((2 ^ 31 + q - 1) / q) / 2 ^ 31 := by
  have hdm := Nat.div_add_mod (2 ^ 31 + q - 1) q
  have hmlt : (2 ^ 31 + q - 1) % q < q := Nat.mod_lt _ hq
  have hia := Nat.div_add_mod i q
  have hrlt : i % q < q := Nat.mod_lt _ hq
  set R := (2 ^ 31 + q - 1) / q with hRdef
  set a := i / q with hadef
  set r := i % q with hrdef
  have hqR_ge : 2 ^ 31 ≤ q * R := by omega
  have hqR_le : q * R ≤ 2 ^ 31 + q - 1 := by omega
  set e := q * R - 2 ^ 31 with hedef
  have helt : e < q := by omega
  have hqRe : q * R = 2 ^ 31 + e := by omega
  have hkey : q * (i * R) = i * (2 ^ 31 + e) := by
    rw [← hqRe]; ring
  have hexp : i * (2 ^ 31 + e) = q * (a * 2 ^ 31) + (r * 2 ^ 31 + i * e) := by
    have hiqa : i = q * a + r := by omega
    calc i * (2 ^ 31 + e) = (q * a + r) * (2 ^ 31 + e) := by rw [← hiqa]
    _ = q * (a * 2 ^ 31) + (r * 2 ^ 31 + (q * a + r) * e) := by ring
    _ = q * (a * 2 ^ 31) + (r * 2 ^ 31 + i * e) := by rw [← hiqa]
  have hfrac : r * 2 ^ 31 + i * e < q * 2 ^ 31 := by
    rcases Nat.lt_or_ge r (q - 1) with hcase | hcase
    · have h1 : i * e ≤ 2 ^ 19 * e := Nat.mul_le_mul_right e hi
      omega
    · have hreq : r = q - 1 := by omega
      have hsm : (a + 1) * q = q * a + q := by ring
      have hm : (a + 1) * q ≤ 2 ^ 19 + 1 := by omega
      have hm2 : a + 1 ≤ (2 ^ 19 + 1) / q := (Nat.le_div_iff_mul_le hq).mpr hm
      have hmul : q * (a + 1) ≤ q * ((2 ^ 19 + 1) / q) := Nat.mul_le_mul_left q hm2
      have hsm2 : q * (a + 1) = q * a + q := by ring
      have hie : i * e ≤ (q * ((2 ^ 19 + 1) / q) - 1) * e :=
        Nat.mul_le_mul_right e (by omega)
      omega
  have hlo : a * 2 ^ 31 ≤ i * R := by
    have h2 : q * (a * 2 ^ 31) ≤ q * (i * R) := by omega
    exact Nat.le_of_mul_le_mul_left h2 hq
  have hhi : i * R < (a + 1) * 2 ^ 31 := by
    have h2 : q * (i * R) < q * ((a + 1) * 2 ^ 31) := by
      rw [hkey, hexp]
      have h3 : q * ((a + 1) * 2 ^ 31) = q * (a * 2 ^ 31) + q * 2 ^ 31 := by ring
      omega
    exact Nat.lt_of_mul_lt_mul_left h2
  have hfin := Nat.div_eq_of_lt_le hlo hhi
  omega

/-- C5: for every `q ∈ [1, 4177]` and every `i ∈ [0, 2^19]`,
`i / q == (i * recip(q)) >> 31` in exact integer arithmetic, where
`recip(q) = (2^31 + q - 1) / q` for `q ≠ 0`. -/
theorem recip_division_exact (q i : ℕ) (h1 : 1 ≤ q) (h2 : q ≤ 4177)
    (hi : i ≤ 2 ^ 19) :
    i / q = (i * recip q) >>> 31 := by
  have hq0 : q ≠ 0 := by omega
  have hchk : recipCheckOne q = true :=
    recipCheckTree_sound 14 1 4177 recipCheckAll_eq_true q h1 (by omega)
  rw [recipCheckOne, decide_eq_true_eq] at hchk
  rw [Nat.shiftRight_eq_div_pow, recip, if_neg hq0]
  exact recip_mul_exact_aux q i (by omega) h2 hi hchk

/-- Witness for C5 at `q = 3`, `i = 10`. -/
theorem recip_division_exact_witness :
    ((1 : ℕ) ≤ 3 ∧ (3 : ℕ) ≤ 4177 ∧ (10 : ℕ) ≤ 2 ^ 19) ∧
      10 / 3 = (10 * recip 3) >>> 31 :=
  ⟨by decide, recip_division_exact 3 10 (by decide) (by decide) (by decide)⟩

/- ### ProbabilityTables::adv_predict_dc_pix (probability_tables.rs) -/

/-- `i16` wrapping cast. -/
def wrap16 (x : ℤ) : ℤ := wrapI 16 x

/-- Arithmetic shift right of a signed machine integer: floor division by
`2 ^ n` (the `/` on `ℤ` rounds toward negative infinity for positive
divisors). -/
def sar (x : ℤ) (n : ℕ) : ℤ := x / 2 ^ n

/-- `ProbabilityTables::from_stride`: the 8 lanes
`block[offset + k * stride]`, `k = 0..7`. -/
def fromStride (block : List ℤ) (offset stride : ℕ) : List ℤ :=
  (List.range 8).map (fun k => block.getD (offset + k * stride) 0)

/-- The neighbor data consumed by DC prediction: the left neighbor's 8
vertical edge pixels and the above neighbor's 8 horizontal edge pixels. -/
structure NeighborData where
  vertical : List ℤ
  horizontal : List ℤ
deriving DecidableEq, Repr

/-- The `calc_left` closure of `adv_predict_dc_pix`: per-edge-pixel DC
estimates against the left neighbor.  `use16` selects the 16-bit SIMD lane
arithmetic (each lane operation wraps in `i16`); otherwise the 32-bit scalar
fallback wraps only at the final `as i16` cast. -/
def calcLeftEstimates (use16 : Bool) (pixels : List ℤ) (nd : NeighborData) :
    List ℤ :=
  if use16 then
    let a1 := fromStride pixels 0 8
    let a2 := fromStride pixels 1 8
    let pixelDelta := List.zipWith (fun x y => wrap16 (x - y)) a1 a2
    let a := a1.map (fun x => wrap16 (x + 1024))
    let b := List.zipWith (fun v d => wrap16 (v - sar (wrap16 (d - sar d 15)) 1))
      nd.vertical pixelDelta
    List.zipWith (fun x y => wrap16 (x - y)) b a
  else
    (List.range 8).map (fun i =>
      let a := pixels.getD (i <<< 3) 0 + 1024
      let pixelDelta := pixels.getD (i <<< 3) 0 - pixels.getD ((i <<< 3) + 1) 0
      let b := nd.vertical.getD i 0 - Int.tdiv pixelDelta 2
      wrap16 (b - a))

/-- The `calc_above` closure of `adv_predict_dc_pix`: per-edge-pixel DC
estimates against the above neighbor. -/
def calcAboveEstimates (use16 : Bool) (pixels : List ℤ) (nd : NeighborData) :
    List ℤ :=
  if use16 then
    let a1 := fromStride pixels 0 1
    let a2 := fromStride pixels 8 1
    let pixelDelta := List.zipWith (fun x y => wrap16 (x - y)) a1 a2
    let a := a1.map (fun x => wrap16 (x + 1024))
    let b := List.zipWith (fun v d => wrap16 (v - sar (wrap16 (d - sar d 15)) 1))
      nd.horizontal pixelDelta
    List.zipWith (fun x y => wrap16 (x - y)) b a
  else
    (List.range 8).map (fun i =>
      let a := pixels.getD i 0 + 1024
      let pixelDelta := pixels.getD i 0 - pixels.getD (i + 8) 0
      let b := nd.horizontal.getD i 0 - Int.tdiv pixelDelta 2
      wrap16 (b - a))

/-- `reduce_min` of an 8-lane vector. -/
def reduceMin (l : List ℤ) : ℤ :=
  match l with
  | [] => 0
  | x :: xs => xs.foldl min x

/-- `reduce_max` of an 8-lane vector. -/
def reduceMax (l : List ℤ) : ℤ :=
  match l with
  | [] => 0
  | x :: xs => xs.foldl max x

/-- The result record of `adv_predict_dc_pix`. -/
structure PredictDCResult where
  predicted_dc : ℤ
  uncertainty : ℤ
  uncertainty2 : ℤ
  advanced_predict_dc_pixels_sans_dc : List ℤ
deriving DecidableEq, Repr

/-- The aggregation tail of `adv_predict_dc_pix` after the neighbor case
split: `avgmed`, the two uncertainty values and the predicted DC.  Rust
evaluates `avgmed / q0`, which panics when `q0 = 0`; the panic is modelled
as `none`. -/
def advPredictDcFinish (q0 : ℤ) (pixels : List ℤ)
    (minDc maxDc avgHorizontal avgVertical : ℤ) : Option PredictDCResult :=
  let avgmed := sar (avgVertical + avgHorizontal) 1
  let uncertainty := wrap16 (sar (maxDc - minDc) 3)
  let avgH := avgHorizontal - avgmed
  let avgV := avgVertical - avgmed
  let farAfieldValue := if |avgH| < |avgV| then avgH else avgV
  let uncertainty2 := wrap16 (sar farAfieldValue 3)
  if q0 = 0 then none
  else some ⟨sar (Int.tdiv avgmed q0 + 4) 3, uncertainty, uncertainty2, pixels⟩

/-- Embedding of `ProbabilityTables::adv_predict_dc_pix`.  The `pixels`
argument is the `pixels_sans_dc` block produced by `run_idct` (defined in
`idct.rs`, which is not among the sources; the claims settled here do not
depend on its values, so the block is taken as an input).  The compile-time
`ALL_PRESENT` specialization is folded into the two presence flags. -/
def advPredictDcPix (leftPresent abovePresent use16 : Bool) (pixels : List ℤ)
    (q0 : ℤ) (nd : NeighborData) : Option PredictDCResult :=
  if leftPresent then
    if abovePresent then
      let horiz := calcLeftEstimates use16 pixels nd
      let vert := calcAboveEstimates use16 pixels nd
      advPredictDcFinish q0 pixels
        (reduceMin (List.zipWith min horiz vert))
        (reduceMax (List.zipWith max horiz vert))
        horiz.sum vert.sum
    else
      let horiz := calcLeftEstimates use16 pixels nd
      advPredictDcFinish q0 pixels (reduceMin horiz) (reduceMax horiz)
        horiz.sum horiz.sum
  else if abovePresent then
    let vert := calcAboveEstimates use16 pixels nd
    advPredictDcFinish q0 pixels (reduceMin vert) (reduceMax vert)
      vert.sum vert.sum
  else
    some ⟨0, 0, 0, pixels⟩

/- ### C6: division by a zero quantization coefficient -/

/-- C6 evidence: with a malformed quantization table (`q0 = 0`) and the left
neighbor present, `adv_predict_dc_pix` evaluates `avgmed / q0`, a Rust
division by zero, and panics (modelled as `none`): the computation is not
total at `q0 = 0`, contrary to the documented `recip(0) = 0` fallback the
specification requires. -/
theorem adv_predict_dc_pix_div_by_zero :
    advPredictDcPix true false false (List.replicate 64 0) 0
      ⟨List.replicate 8 0, List.replicate 8 0⟩ = none := by decide

/- ### C7: the DC prediction aggregates -/

/-- C7 counterexample: a concrete input on which `uncertainty2 = -1` while
the claimed formula `min(|avg_h - avgmed|, |avg_v - avgmed|) >> 3` evaluates
to `1`: the code keeps the sign of the smaller-magnitude deviation instead of
taking the minimum of the absolute values.  Here `avg_h = 0`, `avg_v = 17`,
`avgmed = 8`. -/
theorem adv_predict_uncertainty2_counterexample :
    (advPredictDcPix true true false (List.replicate 64 0) 1
        ⟨List.replicate 8 1024, 1041 :: List.replicate 7 1024⟩).map
        PredictDCResult.uncertainty2 = some (-1) ∧
      (calcLeftEstimates false (List.replicate 64 0)
          ⟨List.replicate 8 1024, 1041 :: List.replicate 7 1024⟩).sum = 0 ∧
      (calcAboveEstimates false (List.replicate 64 0)
          ⟨List.replicate 8 1024, 1041 :: List.replicate 7 1024⟩).sum = 17 ∧
      sar ((0 : ℤ) + 17) 1 = 8 ∧
      sar (min |(0 : ℤ) - 8| |(17 : ℤ) - 8|) 3 = 1 ∧ (-1 : ℤ) ≠ 1 := by
  refine ⟨by decide, by decide, by decide, by decide, by decide, by decide⟩

theorem exists_of_mem_zipWith {α β γ : Type} {f : α → β → γ} :
    ∀ {l1 : List α} {l2 : List β} {x : γ},
      x ∈ List.zipWith f l1 l2 → ∃ a b, x = f a b := by
  intro l1
  induction l1 with
  | nil =>
    intro l2 x h
    simp at h
  | cons a l ih =>
    intro l2 x h
    cases l2 with
    | nil => simp at h
    | cons b l2' =>
      rw [List.zipWith_cons_cons] at h
      rcases List.mem_cons.mp h with h | h
      · exact ⟨a, b, h⟩
      · exact ih h

theorem wrap16_bounds (x : ℤ) : -(2 ^ 15) ≤ wrap16 x ∧ wrap16 x ≤ 2 ^ 15 - 1 := by
  unfold wrap16 wrapI
  omega

theorem wrap16_eq_self {x : ℤ} (h1 : -(2 ^ 15) ≤ x) (h2 : x ≤ 2 ^ 15 - 1) :
    wrap16 x = x := by
  unfold wrap16 wrapI
  omega

theorem calcLeftEstimates_length (use16 : Bool) (pixels : List ℤ)
    (nd : NeighborData) (hv : nd.vertical.length = 8) :
    (calcLeftEstimates use16 pixels nd).length = 8 := by
  cases use16 <;> simp [calcLeftEstimates, fromStride, hv]

theorem calcAboveEstimates_length (use16 : Bool) (pixels : List ℤ)
    (nd : NeighborData) (hh : nd.horizontal.length = 8) :
    (calcAboveEstimates use16 pixels nd).length = 8 := by
  cases use16 <;> simp [calcAboveEstimates, fromStride, hh]

theorem calcLeftEstimates_bounds (use16 : Bool) (pixels : List ℤ)
    (nd : NeighborData) :
    ∀ x ∈ calcLeftEstimates use16 pixels nd, -(2 ^ 15) ≤ x ∧ x ≤ 2 ^ 15 - 1 := by
  intro x hx
  cases use16 with
  | false =>
    simp only [calcLeftEstimates, Bool.false_eq_true, if_false] at hx
    obtain ⟨i, _, rfl⟩ := List.mem_map.mp hx
    exact wrap16_bounds _
  | true =>
    simp only [calcLeftEstimates, if_true] at hx
    obtain ⟨a, b, rfl⟩ := exists_of_mem_zipWith hx
    exact wrap16_bounds _

theorem calcAboveEstimates_bounds (use16 : Bool) (pixels : List ℤ)
    (nd : NeighborData) :
    ∀ x ∈ calcAboveEstimates use16 pixels nd, -(2 ^ 15) ≤ x ∧ x ≤ 2 ^ 15 - 1 := by
  intro x hx
  cases use16 with
  | false =>
    simp only [calcAboveEstimates, Bool.false_eq_true, if_false] at hx
    obtain ⟨i, _, rfl⟩ := List.mem_map.mp hx
    exact wrap16_bounds _
  | true =>
    simp only [calcAboveEstimates, if_true] at hx
    obtain ⟨a, b, rfl⟩ := exists_of_mem_zipWith hx
    exact wrap16_bounds _

theorem list_sum_bounds (lo hi : ℤ) :
    ∀ l : List ℤ, (∀ x ∈ l, lo ≤ x ∧ x ≤ hi) →
      lo * l.length ≤ l.sum ∧ l.sum ≤ hi * l.length := by
  intro l
  induction l with
  | nil => simp
  | cons x xs ih =>
    intro h
    have hx := h x (List.mem_cons_self x xs)
    have hxs := ih (fun y hy => h y (List.mem_cons_of_mem x hy))
    simp only [List.sum_cons, List.length_cons]
    push_cast
    have e1 : lo * ((xs.length : ℤ) + 1) = lo * xs.length + lo := by ring
    have e2 : hi * ((xs.length : ℤ) + 1) = hi * xs.length + hi := by ring
    omega

theorem foldl_min_acc (l : List ℤ) : ∀ a b : ℤ,
    List.foldl min (min a b) l = min a (List.foldl min b l) := by
  induction l with
  | nil =>
    intro a b
    simp
  | cons x xs ih =>
    intro a b
    simp only [List.foldl_cons]
    have e : min (min a b) x = min a (min b x) := by omega
    rw [e, ih]

theorem foldl_max_acc (l : List ℤ) : ∀ a b : ℤ,
    List.foldl max (max a b) l = max a (List.foldl max b l) := by
  induction l with
  | nil =>
    intro a b
    simp
  | cons x xs ih =>
    intro a b
    simp only [List.foldl_cons]
    have e : max (max a b) x = max a (max b x) := by omega
    rw [e, ih]

theorem foldl_min_zip (l1 : List ℤ) : ∀ (l2 : List ℤ), l1.length = l2.length →
    ∀ a b : ℤ, List.foldl min (min a b) (List.zipWith min l1 l2)
      = min (List.foldl min a l1) (List.foldl min b l2) := by
  induction l1 with
  | nil =>
    intro l2 hl a b
    cases l2 with
    | nil => simp
    | cons y ys => simp at hl
  | cons x xs ih =>
    intro l2 hl a b
    cases l2 with
    | nil => simp at hl
    | cons y ys =>
      simp only [List.zipWith_cons_cons, List.foldl_cons]
      have e : min (min a b) (min x y) = min (min a x) (min b y) := by omega
      rw [e, ih ys (by simpa using hl)]

theorem foldl_max_zip (l1 : List ℤ) : ∀ (l2 : List ℤ), l1.length = l2.length →
    ∀ a b : ℤ, List.foldl max (max a b) (List.zipWith max l1 l2)
      = max (List.foldl max a l1) (List.foldl max b l2) := by
  induction l1 with
  | nil =>
    intro l2 hl a b
    cases l2 with
    | nil => simp
    | cons y ys => simp at hl
  | cons x xs ih =>
    intro l2 hl a b
    cases l2 with
    | nil => simp at hl
    | cons y ys =>
      simp only [List.zipWith_cons_cons, List.foldl_cons]
      have e : max (max a b) (max x y) = max (max a x) (max b y) := by omega
      rw [e, ih ys (by simpa using hl)]

theorem reduceMin_zip_append (l1 l2 : List ℤ) (h1 : l1 ≠ [])
    (hl : l1.length = l2.length) :
    reduceMin (List.zipWith min l1 l2) = reduceMin (l1 ++ l2) := by
  cases l1 with
  | nil => exact absurd rfl h1
  | cons x xs =>
    cases l2 with
    | nil => simp at hl
    | cons y ys =>
      simp only [List.zipWith_cons_cons, reduceMin, List.cons_append]
      rw [foldl_min_zip xs ys (by simpa using hl), List.foldl_append]
      simp only [List.foldl_cons]
      rw [foldl_min_acc]

theorem reduceMax_zip_append (l1 l2 : List ℤ) (h1 : l1 ≠ [])
    (hl : l1.length = l2.length) :
    reduceMax (List.zipWith max l1 l2) = reduceMax (l1 ++ l2) := by
  cases l1 with
  | nil => exact absurd rfl h1
  | cons x xs =>
    cases l2 with
    | nil => simp at hl
    | cons y ys =>
      simp only [List.zipWith_cons_cons, reduceMax, List.cons_append]
      rw [foldl_max_zip xs ys (by simpa using hl), List.foldl_append]
      simp only [List.foldl_cons]
      rw [foldl_max_acc]

theorem foldl_min_bounds (lo hi : ℤ) (l : List ℤ)
    (hmem : ∀ x ∈ l, lo ≤ x ∧ x ≤ hi) :
    ∀ a, lo ≤ a → a ≤ hi →
      lo ≤ List.foldl min a l ∧ List.foldl min a l ≤ hi := by
  induction l with
  | nil =>
    intro a h1 h2
    exact ⟨h1, h2⟩
  | cons x xs ih =>
    intro a h1 h2
    have hx := hmem x (List.mem_cons_self x xs)
    have := ih (fun y hy => hmem y (List.mem_cons_of_mem x hy)) (min a x)
      (by omega) (by omega)
    simpa using this

theorem foldl_max_bounds (lo hi : ℤ) (l : List ℤ)
    (hmem : ∀ x ∈ l, lo ≤ x ∧ x ≤ hi) :
    ∀ a, lo ≤ a → a ≤ hi →
      lo ≤ List.foldl max a l ∧ List.foldl max a l ≤ hi := by
  induction l with
  | nil =>
    intro a h1 h2
    exact ⟨h1, h2⟩
  | cons x xs ih =>
    intro a h1 h2
    have hx := hmem x (List.mem_cons_self x xs)
    have := ih (fun y hy => hmem y (List.mem_cons_of_mem x hy)) (max a x)
      (by omega) (by omega)
    simpa using this

theorem reduceMin_bounds (lo hi : ℤ) (l : List ℤ) (hne : l ≠ [])
    (hmem : ∀ x ∈ l, lo ≤ x ∧ x ≤ hi) :
    lo ≤ reduceMin l ∧ reduceMin l ≤ hi := by
  cases l with
  | nil => exact absurd rfl hne
  | cons x xs =>
    have hx := hmem x (List.mem_cons_self x xs)
    exact foldl_min_bounds lo hi xs
      (fun y hy => hmem y (List.mem_cons_of_mem x hy)) x hx.1 hx.2

theorem reduceMax_bounds (lo hi : ℤ) (l : List ℤ) (hne : l ≠ [])
    (hmem : ∀ x ∈ l, lo ≤ x ∧ x ≤ hi) :
    lo ≤ reduceMax l ∧ reduceMax l ≤ hi := by
  cases l with
  | nil => exact absurd rfl hne
  | cons x xs =>
    have hx := hmem x (List.mem_cons_self x xs)
    exact foldl_max_bounds lo hi xs
      (fun y hy => hmem y (List.mem_cons_of_mem x hy)) x hx.1 hx.2

theorem advPredictDcFinish_eq (q0 : ℤ) (pixels : List ℤ)
    (minDc maxDc avgH avgV : ℤ) (hq : q0 ≠ 0)
    (hmin1 : -(2 ^ 15) ≤ minDc) (hmin2 : minDc ≤ 2 ^ 15 - 1)
    (hmax1 : -(2 ^ 15) ≤ maxDc) (hmax2 : maxDc ≤ 2 ^ 15 - 1)
    (hH1 : -262144 ≤ avgH) (hH2 : avgH ≤ 262136)
    (hV1 : -262144 ≤ avgV) (hV2 : avgV ≤ 262136) :
    advPredictDcFinish q0 pixels minDc maxDc avgH avgV =
      some ⟨sar (Int.tdiv (sar (avgH + avgV) 1) q0 + 4) 3,
            sar (maxDc - minDc) 3,
            sar (if |avgH - sar (avgH + avgV) 1| < |avgV - sar (avgH + avgV) 1|
                 then avgH - sar (avgH + avgV) 1
                 else avgV - sar (avgH + avgV) 1) 3,
            pixels⟩ := by
  unfold advPredictDcFinish
  rw [if_neg hq]
  have hcomm : avgV + avgH = avgH + avgV := by ring
  rw [hcomm]
  have hunc : wrap16 (sar (maxDc - minDc) 3) = sar (maxDc - minDc) 3 := by
    apply wrap16_eq_self <;> (unfold sar; omega)
  rw [hunc]
  have hfar : wrap16 (sar (if |avgH - sar (avgH + avgV) 1| <
        |avgV - sar (avgH + avgV) 1| then avgH - sar (avgH + avgV) 1
        else avgV - sar (avgH + avgV) 1) 3)
      = sar (if |avgH - sar (avgH + avgV) 1| < |avgV - sar (avgH + avgV) 1|
             then avgH - sar (avgH + avgV) 1
             else avgV - sar (avgH + avgV) 1) 3 := by
    split
    · apply wrap16_eq_self <;> (unfold sar; omega)
    · apply wrap16_eq_self <;> (unfold sar; omega)
  rw [hfar]

/-- C7 (amended): with at least one neighbor present and `q0 ≠ 0`, the
outputs of `adv_predict_dc_pix` satisfy `avgmed = (avg_h + avg_v) >> 1`,
`uncertainty = (max - min) >> 3` and `predicted_dc = (avgmed / q0 + 4) >> 3`
over the per-edge-pixel DC estimates, while `uncertainty2 = s >> 3` where
`s` is whichever of `avg_h - avgmed` and `avg_v - avgmed` has the smaller
absolute value, keeping its sign (ties to `avg_v - avgmed`) — rather than
the claimed `min(|avg_h - avgmed|, |avg_v - avgmed|) >> 3`. -/
theorem adv_predict_dc_pix_aggregates (lp ap use16 : Bool) (pixels : List ℤ)
    (q0 : ℤ) (nd : NeighborData) (hq : q0 ≠ 0) (hpres : lp = true ∨ ap = true)
    (hvlen : nd.vertical.length = 8) (hhlen : nd.horizontal.length = 8) :
    advPredictDcPix lp ap use16 pixels q0 nd =
      (let horiz := if lp then calcLeftEstimates use16 pixels nd
                    else calcAboveEstimates use16 pixels nd
       let vert := if ap then calcAboveEstimates use16 pixels nd
                   else calcLeftEstimates use16 pixels nd
       let ests := if lp && ap then horiz ++ vert else horiz
       let avgH := horiz.sum
       let avgV := vert.sum
       let avgmed := sar (avgH + avgV) 1
       let s := if |avgH - avgmed| < |avgV - avgmed| then avgH - avgmed
                else avgV - avgmed
       some ⟨sar (Int.tdiv avgmed q0 + 4) 3,
             sar (reduceMax ests - reduceMin ests) 3,
             sar s 3, pixels⟩) := by
  have hLlen := calcLeftEstimates_length use16 pixels nd hvlen
  have hAlen := calcAboveEstimates_length use16 pixels nd hhlen
  have hLb := calcLeftEstimates_bounds use16 pixels nd
  have hAb := calcAboveEstimates_bounds use16 pixels nd
  have hLne : calcLeftEstimates use16 pixels nd ≠ [] := by
    intro hc
    rw [hc] at hLlen
    simp at hLlen
  have hAne : calcAboveEstimates use16 pixels nd ≠ [] := by
    intro hc
    rw [hc] at hAlen
    simp at hAlen
  have hLsum := list_sum_bounds (-(2 ^ 15)) (2 ^ 15 - 1) _ hLb
  have hAsum := list_sum_bounds (-(2 ^ 15)) (2 ^ 15 - 1) _ hAb
  rw [hLlen] at hLsum
  rw [hAlen] at hAsum
  have hLminb := reduceMin_bounds (-(2 ^ 15)) (2 ^ 15 - 1) _ hLne hLb
  have hLmaxb := reduceMax_bounds (-(2 ^ 15)) (2 ^ 15 - 1) _ hLne hLb
  have hAminb := reduceMin_bounds (-(2 ^ 15)) (2 ^ 15 - 1) _ hAne hAb
  have hAmaxb := reduceMax_bounds (-(2 ^ 15)) (2 ^ 15 - 1) _ hAne hAb
  cases lp with
  | true =>
    cases ap with
    | true =>
      have hmemLA : ∀ x ∈ calcLeftEstimates use16 pixels nd ++
          calcAboveEstimates use16 pixels nd, -(2 ^ 15) ≤ x ∧ x ≤ 2 ^ 15 - 1 :=
        fun x hx => (List.mem_append.mp hx).elim (hLb x) (hAb x)
      have hLAne : calcLeftEstimates use16 pixels nd ++
          calcAboveEstimates use16 pixels nd ≠ [] := by
        simp [hLne]
      have hminb := reduceMin_bounds (-(2 ^ 15)) (2 ^ 15 - 1) _ hLAne hmemLA
      have hmaxb := reduceMax_bounds (-(2 ^ 15)) (2 ^ 15 - 1) _ hLAne hmemLA
      simp only [advPredictDcPix, if_true, Bool.and_self]
      rw [reduceMin_zip_append _ _ hLne (by omega),
        reduceMax_zip_append _ _ hLne (by omega)]
      rw [advPredictDcFinish_eq _ _ _ _ _ _ hq hminb.1 hminb.2 hmaxb.1 hmaxb.2
        (by omega) (by omega) (by omega) (by omega)]
    | false =>
      simp only [advPredictDcPix, if_true, Bool.and_false, Bool.false_eq_true,
        if_false]
      rw [advPredictDcFinish_eq _ _ _ _ _ _ hq hLminb.1 hLminb.2 hLmaxb.1
        hLmaxb.2 (by omega) (by omega) (by omega) (by omega)]
  | false =>
    cases ap with
    | true =>
      simp only [advPredictDcPix, if_true, Bool.false_and, Bool.false_eq_true,
        if_false]
      rw [advPredictDcFinish_eq _ _ _ _ _ _ hq hAminb.1 hAminb.2 hAmaxb.1
        hAmaxb.2 (by omega) (by omega) (by omega) (by omega)]
    | false =>
      simp at hpres

/-- Witness for the amended C7 at a concrete both-neighbors input. -/
theorem adv_predict_dc_pix_aggregates_witness :
    ((1 : ℤ) ≠ 0 ∧ (List.replicate 8 (1024 : ℤ)).length = 8 ∧
        ((1041 : ℤ) :: List.replicate 7 1024).length = 8) ∧
      advPredictDcPix true true false (List.replicate 64 0) 1
          ⟨List.replicate 8 1024, 1041 :: List.replicate 7 1024⟩ =
        (let horiz := if true then calcLeftEstimates false (List.replicate 64 0)
                        ⟨List.replicate 8 1024, 1041 :: List.replicate 7 1024⟩
                      else calcAboveEstimates false (List.replicate 64 0)
                        ⟨List.replicate 8 1024, 1041 :: List.replicate 7 1024⟩
         let vert := if true then calcAboveEstimates false (List.replicate 64 0)
                        ⟨List.replicate 8 1024, 1041 :: List.replicate 7 1024⟩
                     else calcLeftEstimates false (List.replicate 64 0)
                        ⟨List.replicate 8 1024, 1041 :: List.replicate 7 1024⟩
         let ests := if true && true then horiz ++ vert else horiz
         let avgH := horiz.sum
         let avgV := vert.sum
         let avgmed := sar (avgH + avgV) 1
         let s := if |avgH - avgmed| < |avgV - avgmed| then avgH - avgmed
                  else avgV - avgmed
         some ⟨sar (Int.tdiv avgmed 1 + 4) 3,
               sar (reduceMax ests - reduceMin ests) 3,
               sar s 3, List.replicate 64 0⟩) :=
  ⟨⟨by decide, by decide, by decide⟩,
    adv_predict_dc_pix_aggregates true true false (List.replicate 64 0) 1
      ⟨List.replicate 8 1024, 1041 :: List.replicate 7 1024⟩ (by decide)
      (Or.inl rfl) (by decide) (by decide)⟩

/- ### BlockBasedImage (block_based_image.rs) -/

/-- The shared static `EMPTY` block: 64 zero coefficients. -/
def EMPTY : List ℤ := List.replicate 64 0

/-- Embedding of `BlockBasedImage`: an `AlignedBlock` is a list of 64
signed 16-bit coefficients. -/
structure BlockBasedImage where
  block_width : ℤ
  original_height : ℤ
  dpos_offset : ℤ
  image : List (List ℤ)
deriving DecidableEq, Repr

/-- `BlockBasedImage::get_block`: computes `(dpos - dpos_offset) as usize`
(wrapping `i32` subtraction reinterpreted as a 64-bit `usize`) and returns
the shared empty block for positions at or past the end. -/
def BlockBasedImage.get_block (img : BlockBasedImage) (dpos : ℤ) : List ℤ :=
  let idx := usizeOfI32 (wrapI 32 (dpos - img.dpos_offset))
  if img.image.length ≤ idx then EMPTY
  else img.image.getD idx []

/-- The `assert_eq!` agreement check of `merge` on `block_width` /
`original_height`: compare against the previously seen value, if any. -/
def checkAgree (prev : Option ℤ) (cur : ℤ) : Option ℤ :=
  match prev with
  | some w => if w = cur then some w else none
  | none => some cur

/-- The loop of `BlockBasedImage::merge` over the per-thread image vectors:
take `v[index]` (out of range is a panic, modelled `none`), assert
`dpos_offset == contents.len() as i32` and the width/height agreement
(assert failures are panics, modelled `none`), then append the images; the
final unwraps panic when no part was seen. -/
def mergeLoop (index : ℕ) (images : List (List BlockBasedImage))
    (contents : List (List ℤ)) (bw oh : Option ℤ) :
    Option (List (List ℤ) × ℤ × ℤ) :=
  match images with
  | [] =>
    match bw, oh with
    | some w, some h => some (contents, w, h)
    | _, _ => none
  | v :: rest =>
    match v[index]? with
    | none => none
    | some part =>
      if part.dpos_offset = i32cast contents.length then
        match checkAgree bw part.block_width,
            checkAgree oh part.original_height with
        | some w, some h =>
          mergeLoop index rest (contents ++ part.image) (some w) (some h)
        | _, _ => none
      else none

/-- Embedding of `BlockBasedImage::merge`: merges `images[i][index]` in
order into an image with `dpos_offset = 0`. -/
def BlockBasedImage.merge (images : List (List BlockBasedImage))
    (index : ℕ) : Option BlockBasedImage :=
  (mergeLoop index images [] none none).map
    (fun r => ⟨r.2.1, r.2.2, 0, r.1⟩)

/-- The C8 side conditions on the parts: each outer element `v` has a
component `v[index]`, its `dpos_offset` equals the number of blocks stored
by the preceding parts (starting from `acc`), and all widths and heights
equal `w` and `h`. -/
def partsCoherent (index : ℕ) (w h : ℤ) :
    ℕ → List (List BlockBasedImage) → Prop
  | _, [] => True
  | acc, v :: rest =>
    ∃ part, v[index]? = some part ∧ part.dpos_offset = (acc : ℤ) ∧
      part.block_width = w ∧ part.original_height = h ∧
      partsCoherent index w h (acc + part.image.length) rest

/-- The concatenation of the `index` components of the parts, in order. -/
def partsFlat (index : ℕ) (images : List (List BlockBasedImage)) :
    List (List ℤ) :=
  (images.map (fun v => ((v[index]?).map BlockBasedImage.image).getD [])).flatten

theorem i32cast_eq_of_lt (n : ℕ) (h : n < 2 ^ 31) : i32cast n = (n : ℤ) := by
  unfold i32cast wrapI
  omega

theorem mergeLoop_cons_step (index : ℕ) (v : List BlockBasedImage)
    (rest : List (List BlockBasedImage)) (contents : List (List ℤ)) (w h : ℤ)
    (part : BlockBasedImage) (hget : v[index]? = some part)
    (hoff : part.dpos_offset = i32cast contents.length)
    (hw : part.block_width = w) (hh : part.original_height = h) :
    mergeLoop index (v :: rest) contents (some w) (some h)
      = mergeLoop index rest (contents ++ part.image) (some w) (some h) := by
  rw [mergeLoop, hget]
  simp [if_pos hoff, checkAgree, hw, hh]

theorem mergeLoop_first_step (index : ℕ) (v : List BlockBasedImage)
    (rest : List (List BlockBasedImage)) (contents : List (List ℤ))
    (part : BlockBasedImage) (hget : v[index]? = some part)
    (hoff : part.dpos_offset = i32cast contents.length) :
    mergeLoop index (v :: rest) contents none none
      = mergeLoop index rest (contents ++ part.image)
          (some part.block_width) (some part.original_height) := by
  rw [mergeLoop, hget]
  simp only [if_pos hoff, checkAgree]

theorem mergeLoop_run (index : ℕ) (w h : ℤ) :
    ∀ (images : List (List BlockBasedImage)) (contents : List (List ℤ)),
      partsCoherent index w h contents.length images →
      contents.length + (partsFlat index images).length < 2 ^ 31 →
      mergeLoop index images contents (some w) (some h)
        = some (contents ++ partsFlat index images, w, h) := by
  intro images
  induction images with
  | nil =>
    intro contents _ _
    simp [mergeLoop, partsFlat]
  | cons v rest ih =>
    intro contents hco hsz
    obtain ⟨part, hget, hoff, hw, hh, hrest⟩ := hco
    have hflat : partsFlat index (v :: rest)
        = part.image ++ partsFlat index rest := by
      simp [partsFlat, hget]
    rw [hflat] at hsz ⊢
    have hclen : contents.length < 2 ^ 31 := by
      rw [List.length_append] at hsz
      omega
    rw [mergeLoop_cons_step index v rest contents w h part hget
      (by rw [hoff, i32cast_eq_of_lt _ hclen]) hw hh]
    have hco' : partsCoherent index w h (contents ++ part.image).length rest := by
      rw [List.length_append]
      exact hrest
    have hsz' : (contents ++ part.image).length
        + (partsFlat index rest).length < 2 ^ 31 := by
      rw [List.length_append] at hsz ⊢
      omega
    rw [ih (contents ++ part.image) hco' hsz', List.append_assoc]

theorem partsFlat_getD (index : ℕ) (w h : ℤ) :
    ∀ (images : List (List BlockBasedImage)) (acc : ℕ),
      partsCoherent index w h acc images →
      ∀ v ∈ images, ∀ part : BlockBasedImage, v[index]? = some part →
        ∃ d : ℕ, part.dpos_offset = ((acc + d : ℕ) : ℤ) ∧
          d + part.image.length ≤ (partsFlat index images).length ∧
          ∀ j : ℕ, j < part.image.length →
            (partsFlat index images).getD (d + j) [] = part.image.getD j [] := by
  intro images
  induction images with
  | nil =>
    intro acc _ v hv
    simp at hv
  | cons v0 rest ih =>
    intro acc hco v hv part hget
    obtain ⟨part0, hget0, hoff0, hw0, hh0, hrest⟩ := hco
    have hflat : partsFlat index (v0 :: rest)
        = part0.image ++ partsFlat index rest := by
      simp [partsFlat, hget0]
    rcases List.mem_cons.mp hv with rfl | hv'
    · rw [hget0] at hget
      injection hget with heq
      subst heq
      refine ⟨0, by simpa using hoff0, ?_, ?_⟩
      · rw [hflat, List.length_append]
        omega
      · intro j hj
        rw [hflat, Nat.zero_add, List.getD_append _ _ _ j hj]
    · obtain ⟨d', hoff', hle', hpt'⟩ :=
        ih (acc + part0.image.length) hrest v hv' part hget
      refine ⟨part0.image.length + d', ?_, ?_, ?_⟩
      · rw [hoff']
        push_cast
        ring
      · rw [hflat, List.length_append]
        omega
      · intro j hj
        rw [hflat]
        have e1 : part0.image.length + d' + j
            = part0.image.length + (d' + j) := by omega
        rw [e1, List.getD_append_right _ _ _ _ (by omega)]
        have e2 : part0.image.length + (d' + j) - part0.image.length
            = d' + j := by omega
        rw [e2]
        exact hpt' j hj

theorem get_block_getD (m : BlockBasedImage) (k : ℕ) (h0 : m.dpos_offset = 0)
    (hk : k < m.image.length) (hlen : m.image.length ≤ 2 ^ 31) :
    m.get_block (k : ℤ) = m.image.getD k [] := by
  unfold BlockBasedImage.get_block
  rw [h0]
  have hidx : usizeOfI32 (wrapI 32 ((k : ℤ) - 0)) = k := by
    unfold usizeOfI32 wrapI
    omega
  rw [hidx, if_neg (by omega)]

/- ### C8: merge -/

/-- C8 counterexample: on the empty list of parts — for which the claim's
hypotheses hold vacuously — `merge` panics on `block_width.unwrap()`
(modelled as `none`) instead of producing a merged image. -/
theorem merge_empty_counterexample :
    BlockBasedImage.merge [] 0 = none := by rfl

/-- C8 (amended): merging a NONEMPTY list of partial images of one component
in which each part's `dpos_offset` equals the total number of blocks stored
in the preceding parts, all parts have equal `block_width` and equal
`original_height`, and the total block count is within `i32` range, produces
an image with `dpos_offset` 0 such that for every `dpos` stored in some
part, `get_block(dpos)` on the merged image is the block that part held. -/
theorem merge_spec (index : ℕ) (images : List (List BlockBasedImage))
    (w h : ℤ) (hne : images ≠ [])
    (hco : partsCoherent index w h 0 images)
    (hsz : (partsFlat index images).length < 2 ^ 31) :
    ∃ m, BlockBasedImage.merge images index = some m ∧
      m.dpos_offset = 0 ∧ m.block_width = w ∧ m.original_height = h ∧
      m.image = partsFlat index images ∧
      (∀ v ∈ images, ∀ part : BlockBasedImage, v[index]? = some part →
        ∀ j : ℕ, j < part.image.length →
          m.get_block (part.dpos_offset + (j : ℤ)) = part.image.getD j []) := by
  cases images with
  | nil => exact absurd rfl hne
  | cons v0 rest =>
    obtain ⟨part0, hget0, hoff0, hw0, hh0, hrest⟩ := hco
    have hflat : partsFlat index (v0 :: rest)
        = part0.image ++ partsFlat index rest := by
      simp [partsFlat, hget0]
    have hfirst := mergeLoop_first_step index v0 rest [] part0 hget0
      (by rw [hoff0]; simp [i32cast_eq_of_lt])
    have hco' : partsCoherent index w h ([] ++ part0.image).length rest := by
      simp only [List.nil_append]
      have : part0.image.length = 0 + part0.image.length := by omega
      rw [this]
      exact hrest
    have hsz' : ([] ++ part0.image).length
        + (partsFlat index rest).length < 2 ^ 31 := by
      rw [hflat, List.length_append] at hsz
      simpa using hsz
    have hrun := mergeLoop_run index w h rest ([] ++ part0.image) hco' hsz'
    have hloop : mergeLoop index (v0 :: rest) [] none none
        = some (partsFlat index (v0 :: rest), w, h) := by
      rw [hfirst, hw0, hh0, hrun, hflat]
      simp
    refine ⟨⟨w, h, 0, partsFlat index (v0 :: rest)⟩, ?_, rfl, rfl, rfl, rfl, ?_⟩
    · rw [BlockBasedImage.merge, hloop]
      rfl
    · intro v hv part hget j hj
      obtain ⟨d, hoffd, hle, hpt⟩ :=
        partsFlat_getD index w h (v0 :: rest) 0
          (⟨part0, hget0, hoff0, hw0, hh0, hrest⟩) v hv part hget
      rw [hoffd]
      have e : (((0 + d : ℕ) : ℤ) + (j : ℤ)) = ((d + j : ℕ) : ℤ) := by
        push_cast
        ring
      rw [e, get_block_getD _ (d + j) rfl (by simpa using by omega : d + j < _)
        (by simpa using Nat.le_of_lt hsz)]
      exact hpt j hj

/-- Witness for the amended C8: two single-part images with offsets 0 and 1
merge into a two-block image. -/
theorem merge_spec_witness :
    (([[⟨1, 1, 0, [List.replicate 64 3]⟩],
        [⟨1, 1, 1, [List.replicate 64 4]⟩]] :
          List (List BlockBasedImage)) ≠ [] ∧
      partsCoherent 0 1 1 0
        [[⟨1, 1, 0, [List.replicate 64 3]⟩], [⟨1, 1, 1, [List.replicate 64 4]⟩]] ∧
      (partsFlat 0
        [[⟨1, 1, 0, [List.replicate 64 3]⟩],
          [⟨1, 1, 1, [List.replicate 64 4]⟩]]).length < 2 ^ 31) ∧
      ∃ m, BlockBasedImage.merge
          [[⟨1, 1, 0, [List.replicate 64 3]⟩], [⟨1, 1, 1, [List.replicate 64 4]⟩]]
          0 = some m ∧
        m.dpos_offset = 0 ∧ m.block_width = 1 ∧ m.original_height = 1 ∧
        m.image = partsFlat 0
          [[⟨1, 1, 0, [List.replicate 64 3]⟩], [⟨1, 1, 1, [List.replicate 64 4]⟩]] ∧
        (∀ v ∈ ([[⟨1, 1, 0, [List.replicate 64 3]⟩],
            [⟨1, 1, 1, [List.replicate 64 4]⟩]] : List (List BlockBasedImage)),
          ∀ part : BlockBasedImage, v[0]? = some part →
            ∀ j : ℕ, j < part.image.length →
              m.get_block (part.dpos_offset + (j : ℤ)) = part.image.getD j []) :=
  ⟨⟨by decide, ⟨_, rfl, by norm_num, rfl, rfl, _, rfl, by norm_num, rfl, rfl,
      trivial⟩, by decide⟩,
    merge_spec 0 _ 1 1 (by decide)
      ⟨_, rfl, by norm_num, rfl, rfl, _, rfl, by norm_num, rfl, rfl, trivial⟩
      (by decide)⟩

/- ### C9: get_block -/

/-- C9: for every `BlockBasedImage` (with its lengths and positions in `i32`
range) and every `dpos`: when `dpos - dpos_offset` is at least the number of
stored blocks, `get_block` returns the shared empty block of 64 zero
coefficients; when it is a valid stored index `k`, it returns the block
stored at `k`. -/
theorem get_block_spec (img : BlockBasedImage) (dpos : ℤ)
    (hlen : img.image.length ≤ 2 ^ 31)
    (hoff1 : -(2 ^ 31) ≤ img.dpos_offset) (hoff2 : img.dpos_offset < 2 ^ 31)
    (hd1 : -(2 ^ 31) ≤ dpos) (hd2 : dpos < 2 ^ 31) :
    ((img.image.length : ℤ) ≤ dpos - img.dpos_offset →
        img.get_block dpos = List.replicate 64 0) ∧
      (∀ k : ℕ, (k : ℤ) = dpos - img.dpos_offset → k < img.image.length →
        img.get_block dpos = img.image.getD k []) := by
  constructor
  · intro hge
    unfold BlockBasedImage.get_block EMPTY
    have hcond : img.image.length
        ≤ usizeOfI32 (wrapI 32 (dpos - img.dpos_offset)) := by
      unfold usizeOfI32 wrapI
      omega
    rw [if_pos hcond]
  · intro k hk hklen
    unfold BlockBasedImage.get_block
    have hidx : usizeOfI32 (wrapI 32 (dpos - img.dpos_offset)) = k := by
      unfold usizeOfI32 wrapI
      omega
    rw [hidx, if_neg (by omega)]

/-- Witness for C9: a one-block image queried past the end. -/
theorem get_block_spec_witness :
    (([List.replicate 64 (7 : ℤ)] : List (List ℤ)).length ≤ 2 ^ 31 ∧
        -(2 ^ 31) ≤ (0 : ℤ) ∧ (0 : ℤ) < 2 ^ 31 ∧
        -(2 ^ 31) ≤ (5 : ℤ) ∧ (5 : ℤ) < 2 ^ 31) ∧
      ((((⟨1, 1, 0, [List.replicate 64 7]⟩ :
            BlockBasedImage).image.length : ℤ) ≤ 5 - (0 : ℤ) →
          BlockBasedImage.get_block ⟨1, 1, 0, [List.replicate 64 7]⟩ 5
            = List.replicate 64 0) ∧
        (∀ k : ℕ, (k : ℤ) = 5 - (0 : ℤ) →
          k < (⟨1, 1, 0, [List.replicate 64 7]⟩ :
            BlockBasedImage).image.length →
          BlockBasedImage.get_block ⟨1, 1, 0, [List.replicate 64 7]⟩ 5
            = (⟨1, 1, 0, [List.replicate 64 7]⟩ :
              BlockBasedImage).image.getD k [])) :=
  ⟨⟨by decide, by decide, by decide, by decide, by decide⟩,
    get_block_spec ⟨1, 1, 0, [List.replicate 64 7]⟩ 5 (by decide) (by decide)
      (by decide) (by decide) (by decide)⟩

/- ### read_coefficient_block (lepton_decoder.rs) -/

/-- The decoder error kinds relevant to C3: a propagated upstream I/O
failure, the StreamInconsistent exit code, and a Rust panic. -/
inductive DecodeErr where
  | io
  | streamInconsistent
  | panic
deriving DecidableEq, Repr

/-- The all-zero 64-coefficient block (`AlignedBlock::default()`), also the
initial dequantized raster. -/
def zeroBlock : List ℤ := List.replicate 64 0

/-- Modelled from the spec: the `Model` reader methods
(`read_non_zero_7x7_count`, `read_coef`, `read_non_zero_edge_count`,
`read_edge_coefficient`, `read_dc` live in `model.rs`, which is not among
the sources).  Each slot prescribes the value the model layer decodes at
that point of the fixed read sequence; `Except.error ()` stands for a
propagated upstream I/O error.  The context arguments of the real methods
(bins, priors, eob estimates) only select model slots and do not alter the
control flow settled here. -/
structure ModelOracle where
  nz7Count : Except Unit ℕ
  coef7 : ℕ → Except Unit ℤ
  edgeCount : Bool → Except Unit ℕ
  edgeCoef : Bool → ℕ → Except Unit ℤ
  dcCoef : Except Unit ℤ

/-- The 7x7 zigzag scan loop of `read_coefficient_block`: `zig` counts the
reads, `remaining` the not-yet-seen non-zeros; a nonzero coefficient is
stored at its transposed coordinate and dequantized into the raster, and the
loop breaks once `remaining` hits 0.  `coords` is the `UNZIGZAG_49_TR`
constant of `consts.rs` (not among the sources), taken as a parameter. -/
def scan7x7 (coef7 : ℕ → Except Unit ℤ) (qtT : List ℤ) :
    List ℕ → ℕ → ℕ → List ℤ → List ℤ → Except Unit (List ℤ × List ℤ × ℕ)
  | [], _, remaining, out, raster => .ok (out, raster, remaining)
  | coord :: rest, zig, remaining, out, raster =>
    match coef7 zig with
    | .error e => .error e
    | .ok coef =>
      if coef ≠ 0 then
        if remaining - 1 = 0 then
          .ok (out.set coord coef, raster.set coord (coef * qtT.getD coord 0), 0)
        else
          scan7x7 coef7 qtT rest (zig + 1) (remaining - 1) (out.set coord coef)
            (raster.set coord (coef * qtT.getD coord 0))
      else scan7x7 coef7 qtT rest (zig + 1) remaining out raster

/-- Embedding of `ProbabilityTables::calc_coefficient_context8_lak` from
`probability_tables.rs`, the compile-time `ALL_PRESENT` / `HORIZONTAL`
parameters folded into flags (with both neighbors present the early-return
guard is false either way): absent the direction's neighbor it returns 0
without dividing; otherwise it divides the prediction lane
`pred[coord_tr >> 3]` (horizontal) resp. `pred[coord_tr]` (vertical) by
`qtT[coord_tr] << 13`, a Rust `i32` division that panics (modelled `none`)
when the edge quantization entry is zero. -/
def calcCoefficientContext8Lak (lp ap horizontal : Bool) (qtT : List ℤ)
    (coordTr : ℕ) (pred : List ℤ) : Option ℤ :=
  if (horizontal && !ap) || (!horizontal && !lp) then some 0
  else if qtT.getD coordTr 0 * 2 ^ 13 = 0 then none
  else some (Int.tdiv
    (pred.getD (if horizontal then coordTr >>> 3 else coordTr) 0)
    (qtT.getD coordTr 0 * 2 ^ 13))

/-- The 7-lane loop of `decode_one_edge`: breaks when `remaining` hits 0;
each active lane first computes the LAK prior (which panics on a zero edge
quantization entry when the direction's neighbor is present), then reads a
coefficient at the running `zig15` offset, storing nonzero ones at the
running transposed coordinate. -/
def edgeLanes (edgeCoefD : ℕ → Except Unit ℤ) (lp ap horizontal : Bool)
    (qtT pred : List ℤ) (delta : ℕ) :
    ℕ → ℕ → ℕ → ℕ → List ℤ → List ℤ → Except DecodeErr (List ℤ × List ℤ × ℕ)
  | 0, _, _, remaining, out, raster => .ok (out, raster, remaining)
  | lane + 1, coordTr, zig15, remaining, out, raster =>
    if remaining = 0 then .ok (out, raster, 0)
    else
      match calcCoefficientContext8Lak lp ap horizontal qtT coordTr pred with
      | none => .error .panic
      | some _ =>
        match edgeCoefD zig15 with
        | .error _ => .error .io
        | .ok coef =>
          if coef ≠ 0 then
            edgeLanes edgeCoefD lp ap horizontal qtT pred delta lane
              (coordTr + delta) (zig15 + 1) (remaining - 1)
              (out.set coordTr coef)
              (raster.set coordTr (coef * qtT.getD coordTr 0))
          else
            edgeLanes edgeCoefD lp ap horizontal qtT pred delta lane
              (coordTr + delta) (zig15 + 1) remaining out raster

/-- Embedding of `decode_one_edge`: read the edge non-zero count, walk the 7
lanes (stride 8 from coordinate 8 for the horizontal row, stride 1 from
coordinate 1 for the vertical column, `zig15offset` 0 resp. 7) computing the
LAK prior per active lane, and fail StreamInconsistent when non-zeros
remain.  `pred` is the direction's prediction vector produced by
`predict_current_edges`. -/
def decodeOneEdge (o : ModelOracle) (lp ap horizontal : Bool)
    (qtT pred : List ℤ) (out raster : List ℤ) :
    Except DecodeErr (List ℤ × List ℤ) :=
  match o.edgeCount horizontal with
  | .error _ => .error .io
  | .ok numNonZerosEdge =>
    match edgeLanes (o.edgeCoef horizontal) lp ap horizontal qtT pred
        (if horizontal then 8 else 1) 7 (if horizontal then 8 else 1)
        (if horizontal then 0 else 7) numNonZerosEdge out raster with
    | .error e => .error e
    | .ok (out2, raster2, remaining) =>
      if remaining ≠ 0 then .error .streamInconsistent
      else .ok (out2, raster2)

/-- Modelled from the spec: `MAX_EXPONENT` (a constant of `consts.rs`, not
among the sources), the maximal DC bit length; the claims settled here do
not depend on its value. -/
def MAX_EXPONENT : ℕ := 11

/-- `ProbabilityTables::adv_predict_or_unpredict_dc` from
`probability_tables.rs`: add (or subtract) the prediction and wrap into
`[-(1 << (MAX_EXPONENT - 1)), 1 << (MAX_EXPONENT - 1)]` by one modular
adjustment. -/
def adv_predict_or_unpredict_dc (saved_dc : ℤ) (recover_original : Bool)
    (predicted_val : ℤ) : ℤ :=
  let max_value : ℤ := 2 ^ (MAX_EXPONENT - 1)
  let min_value := -max_value
  let adjustment_factor := 2 * max_value + 1
  let r1 := saved_dc + if recover_original then predicted_val else -predicted_val
  let r2 := if r1 < min_value then r1 + adjustment_factor else r1
  if r2 > max_value then r2 - adjustment_factor else r2

/-- Embedding of `read_coefficient_block` from `lepton_decoder.rs`.  The
model/bool-reader reads are abstracted by a `ModelOracle`; `coords49` is the
`UNZIGZAG_49_TR` constant, `idctF` is `run_idct` of `idct.rs`, and `hPred` /
`vPred` are the edge prediction vectors of `predict_current_edges` (whose
inputs - the `ICOS_BASED_8192_SCALED` constant and the neighbor summaries
of `neighbor_summary.rs` - are outside the sources, so the vectors are taken
as inputs; only their values, never control flow, depend on them).  The
`NeighborSummary` construction (also outside the sources) is omitted from
the returned payload: the result is the output block and
`num_non_zeros_7x7`.  A Rust panic - the `q0 = 0` division in
`adv_predict_dc_pix`, or the zero-edge-quantization division in the LAK
prior of `decode_one_edge` - is the explicit error `DecodeErr.panic`. -/
def readCoefficientBlock (lp ap use16 : Bool) (o : ModelOracle)
    (coords49 : List ℕ) (qtT : List ℤ) (q0 : ℤ)
    (idctF : List ℤ → List ℤ) (hPred vPred : List ℤ) (nd : NeighborData) :
    Except DecodeErr (List ℤ × ℕ) :=
  match o.nz7Count with
  | .error _ => .error .io
  | .ok nz7 =>
    if nz7 > 49 then .error .streamInconsistent
    else
      match (if 0 < nz7 then
          scan7x7 o.coef7 qtT coords49 0 nz7 zeroBlock zeroBlock
        else .ok (zeroBlock, zeroBlock, nz7)) with
      | .error _ => .error .io
      | .ok (out, raster, rem7) =>
        if rem7 ≠ 0 then .error .streamInconsistent
        else
          match decodeOneEdge o lp ap true qtT hPred out raster with
          | .error e => .error e
          | .ok (outH, rasterH) =>
            match decodeOneEdge o lp ap false qtT vPred outH rasterH with
            | .error e => .error e
            | .ok (outV, rasterV) =>
              match advPredictDcPix lp ap use16 (idctF rasterV) q0 nd with
              | none => .error .panic
              | some predictedDc =>
                match o.dcCoef with
                | .error _ => .error .io
                | .ok coef =>
                  .ok (outV.set 0 (wrap16 (adv_predict_or_unpredict_dc coef
                    true predictedDc.predicted_dc)), nz7)

/-- The C3 self-consistency failure condition, over the same prescribed
reads and the same run: the decoded `num_non_zeros_7x7` exceeds 49, or the
7x7 scan finishes with a nonzero remaining count, or the horizontal edge
scan finishes with a nonzero remaining edge count, or it finishes cleanly
and the vertical edge scan finishes with a nonzero remaining edge count.
An upstream I/O failure or a panic inside a scan is not a stream
inconsistency. -/
def siCondition (lp ap : Bool) (o : ModelOracle) (coords49 : List ℕ)
    (qtT hPred vPred : List ℤ) : Prop :=
  match o.nz7Count with
  | .error _ => False
  | .ok nz7 =>
    nz7 > 49 ∨
    (nz7 ≤ 49 ∧
      match (if 0 < nz7 then
          scan7x7 o.coef7 qtT coords49 0 nz7 zeroBlock zeroBlock
        else .ok (zeroBlock, zeroBlock, nz7)) with
      | .error _ => False
      | .ok (out, raster, rem7) =>
        rem7 ≠ 0 ∨
        (rem7 = 0 ∧
          match o.edgeCount true with
          | .error _ => False
          | .ok cntH =>
            match edgeLanes (o.edgeCoef true) lp ap true qtT hPred 8 7 8 0
                cntH out raster with
            | .error _ => False
            | .ok (outH, rasterH, remH) =>
              remH ≠ 0 ∨
              (remH = 0 ∧
                match o.edgeCount false with
                | .error _ => False
                | .ok cntV =>
                  match edgeLanes (o.edgeCoef false) lp ap false qtT vPred 1 7
                      1 7 cntV outH rasterH with
                  | .error _ => False
                  | .ok (outV, rasterV, remV) => remV ≠ 0)))

theorem advPredictDcPix_isSome (lp ap use16 : Bool) (pixels : List ℤ)
    (q0 : ℤ) (nd : NeighborData) (hq : q0 ≠ 0) :
    ∃ r, advPredictDcPix lp ap use16 pixels q0 nd = some r := by
  cases lp <;> cases ap <;>
    simp [advPredictDcPix, advPredictDcFinish, hq]

theorem edgeLanes_cases (edgeCoefD : ℕ → Except Unit ℤ)
    (lp ap horizontal : Bool) (qtT pred : List ℤ) (delta : ℕ) :
    ∀ (lane coordTr zig15 remaining : ℕ) (out raster : List ℤ),
      (∀ j, j < lane → qtT.getD (coordTr + j * delta) 0 ≠ 0) →
      edgeLanes edgeCoefD lp ap horizontal qtT pred delta lane coordTr zig15
          remaining out raster = .error .io ∨
        ∃ t, edgeLanes edgeCoefD lp ap horizontal qtT pred delta lane coordTr
          zig15 remaining out raster = .ok t := by
  intro lane
  induction lane with
  | zero =>
    intro coordTr zig15 remaining out raster _
    exact Or.inr ⟨_, rfl⟩
  | succ lane ih =>
    intro coordTr zig15 remaining out raster hqt
    have hshift : ∀ j, j < lane → qtT.getD (coordTr + delta + j * delta) 0 ≠ 0 := by
      intro j hj
      have h := hqt (j + 1) (by omega)
      have e : coordTr + (j + 1) * delta = coordTr + delta + j * delta := by
        ring
      rwa [e] at h
    by_cases hrem : remaining = 0
    · right
      refine ⟨(out, raster, 0), ?_⟩
      rw [edgeLanes, if_pos hrem]
    · have hdiv : qtT.getD coordTr 0 ≠ 0 := by
        have h := hqt 0 (by omega)
        simpa using h
      have hcalc : ∃ bp, calcCoefficientContext8Lak lp ap horizontal qtT
          coordTr pred = some bp := by
        unfold calcCoefficientContext8Lak
        split
        · exact ⟨0, rfl⟩
        · have hne : qtT.getD coordTr 0 * 2 ^ 13 ≠ 0 := by
            intro h
            rcases mul_eq_zero.mp h with h | h
            · exact hdiv h
            · norm_num at h
          rw [if_neg hne]
          exact ⟨_, rfl⟩
      obtain ⟨bp, hbp⟩ := hcalc
      cases hread : edgeCoefD zig15 with
      | error e =>
        left
        simp [edgeLanes, hrem, hbp, hread]
      | ok coef =>
        by_cases hc : coef = 0
        · have hstep : edgeLanes edgeCoefD lp ap horizontal qtT pred delta
              (lane + 1) coordTr zig15 remaining out raster
              = edgeLanes edgeCoefD lp ap horizontal qtT pred delta lane
                (coordTr + delta) (zig15 + 1) remaining out raster := by
            simp [edgeLanes, hrem, hbp, hread, hc]
          rw [hstep]
          exact ih (coordTr + delta) (zig15 + 1) remaining out raster hshift
        · have hstep : edgeLanes edgeCoefD lp ap horizontal qtT pred delta
              (lane + 1) coordTr zig15 remaining out raster
              = edgeLanes edgeCoefD lp ap horizontal qtT pred delta lane
                (coordTr + delta) (zig15 + 1) (remaining - 1)
                (out.set coordTr coef)
                (raster.set coordTr (coef * qtT.getD coordTr 0)) := by
            simp [edgeLanes, hrem, hbp, hread, hc]
          rw [hstep]
          exact ih (coordTr + delta) (zig15 + 1) (remaining - 1)
            (out.set coordTr coef)
            (raster.set coordTr (coef * qtT.getD coordTr 0)) hshift

theorem readCoefficientBlock_trichotomy (lp ap use16 : Bool) (o : ModelOracle)
    (coords49 : List ℕ) (qtT : List ℤ) (q0 : ℤ)
    (idctF : List ℤ → List ℤ) (hPred vPred : List ℤ) (nd : NeighborData)
    (hq : q0 ≠ 0)
    (hqt : ∀ k, k < 8 → 1 ≤ k →
      qtT.getD k 0 ≠ 0 ∧ qtT.getD (8 * k) 0 ≠ 0) :
    (readCoefficientBlock lp ap use16 o coords49 qtT q0 idctF hPred vPred nd
        = .error .io ∧
        ¬ siCondition lp ap o coords49 qtT hPred vPred) ∨
      (readCoefficientBlock lp ap use16 o coords49 qtT q0 idctF hPred vPred nd
          = .error .streamInconsistent ∧
        siCondition lp ap o coords49 qtT hPred vPred) ∨
      (∃ res, readCoefficientBlock lp ap use16 o coords49 qtT q0 idctF hPred
          vPred nd = .ok res ∧
        ¬ siCondition lp ap o coords49 qtT hPred vPred) := by
  have hH : ∀ j, j < 7 → qtT.getD (8 + j * 8) 0 ≠ 0 := by
    intro j hj
    have h := (hqt (j + 1) (by omega) (by omega)).2
    have e : 8 * (j + 1) = 8 + j * 8 := by ring
    rwa [e] at h
  have hV : ∀ j, j < 7 → qtT.getD (1 + j * 1) 0 ≠ 0 := by
    intro j hj
    have h := (hqt (j + 1) (by omega) (by omega)).1
    have e : j + 1 = 1 + j * 1 := by ring
    rwa [e] at h
  cases h1 : o.nz7Count with
  | error e =>
    exact Or.inl ⟨by simp [readCoefficientBlock, h1], by simp [siCondition, h1]⟩
  | ok nz7 =>
    by_cases h49 : 49 < nz7
    · refine Or.inr (Or.inl ⟨by simp [readCoefficientBlock, h1, h49], ?_⟩)
      simp only [siCondition, h1]
      exact Or.inl h49
    · cases h2 : (if 0 < nz7 then
          scan7x7 o.coef7 qtT coords49 0 nz7 zeroBlock zeroBlock
        else .ok (zeroBlock, zeroBlock, nz7)) with
      | error e =>
        exact Or.inl ⟨by simp [readCoefficientBlock, h1, h49, h2],
          by simp [siCondition, h1, h49, h2]⟩
      | ok trip =>
        obtain ⟨out, raster, rem7⟩ := trip
        by_cases hrem : rem7 = 0
        · cases h3 : o.edgeCount true with
          | error e =>
            exact Or.inl ⟨by simp [readCoefficientBlock, h1, h49, h2, hrem,
                decodeOneEdge, h3],
              by simp [siCondition, h1, h49, h2, hrem, h3]⟩
          | ok cntH =>
            rcases edgeLanes_cases (o.edgeCoef true) lp ap true qtT hPred 8
                7 8 0 cntH out raster hH with h4 | ⟨tripH, h4⟩
            · exact Or.inl ⟨by simp [readCoefficientBlock, h1, h49, h2, hrem,
                  decodeOneEdge, h3, h4],
                by simp [siCondition, h1, h49, h2, hrem, h3, h4]⟩
            · obtain ⟨outH, rasterH, remH⟩ := tripH
              by_cases hremH : remH = 0
              · cases h5 : o.edgeCount false with
                | error e =>
                  exact Or.inl ⟨by simp [readCoefficientBlock, h1, h49, h2,
                      hrem, decodeOneEdge, h3, h4, hremH, h5],
                    by simp [siCondition, h1, h49, h2, hrem, h3, h4, hremH, h5]⟩
                | ok cntV =>
                  rcases edgeLanes_cases (o.edgeCoef false) lp ap false qtT
                      vPred 1 7 1 7 cntV outH rasterH hV with h6 | ⟨tripV, h6⟩
                  · exact Or.inl ⟨by simp [readCoefficientBlock, h1, h49, h2,
                        hrem, decodeOneEdge, h3, h4, hremH, h5, h6],
                      by simp [siCondition, h1, h49, h2, hrem, h3, h4, hremH,
                        h5, h6]⟩
                  · obtain ⟨outV, rasterV, remV⟩ := tripV
                    by_cases hremV : remV = 0
                    · obtain ⟨r, hr⟩ := advPredictDcPix_isSome lp ap use16
                        (idctF rasterV) q0 nd hq
                      cases h7 : o.dcCoef with
                      | error e =>
                        exact Or.inl ⟨by simp [readCoefficientBlock, h1, h49,
                            h2, hrem, decodeOneEdge, h3, h4, hremH, h5, h6,
                            hremV, hr, h7],
                          by simp [siCondition, h1, h49, h2, hrem, h3, h4,
                            hremH, h5, h6, hremV]⟩
                      | ok coef =>
                        refine Or.inr (Or.inr ⟨(outV.set 0 (wrap16
                          (adv_predict_or_unpredict_dc coef true
                            r.predicted_dc)), nz7), ?_, ?_⟩)
                        · simp [readCoefficientBlock, h1, h49, h2, hrem,
                            decodeOneEdge, h3, h4, hremH, h5, h6, hremV, hr,
                            h7]
                        · simp [siCondition, h1, h49, h2, hrem, h3, h4, hremH,
                            h5, h6, hremV]
                    · refine Or.inr (Or.inl ⟨by simp [readCoefficientBlock,
                        h1, h49, h2, hrem, decodeOneEdge, h3, h4, hremH, h5,
                        h6, hremV], ?_⟩)
                      simp [siCondition, h1, h49, h2, hrem, h3, h4, hremH, h5,
                        h6]
                      omega
              · refine Or.inr (Or.inl ⟨by simp [readCoefficientBlock, h1,
                  h49, h2, hrem, decodeOneEdge, h3, h4, hremH], ?_⟩)
                simp [siCondition, h1, h49, h2, hrem, h3, h4]
                omega
        · refine Or.inr (Or.inl ⟨by simp [readCoefficientBlock, h1, h49, h2,
            hrem], ?_⟩)
          simp [siCondition, h1, h49, h2]
          omega

/-- C3 counterexamples, two panic inputs for the claim as stated: (i) a
stream-consistent oracle (zero non-zero counts everywhere) with `q0 = 0`
and the left neighbor present panics in the DC-prediction division; (ii)
with `q0 = 1` but a zero edge quantization entry at transposed coordinate 8,
the above neighbor present and a nonzero horizontal edge count, the LAK
prior of `decode_one_edge` divides by `qtT[8] << 13 = 0` and panics.  In
both cases `read_coefficient_block` neither returns StreamInconsistent nor
Ok nor an upstream I/O error, contrary to the claim's exhaustiveness. -/
theorem read_coefficient_block_panic_counterexample :
    readCoefficientBlock true false false
      ⟨.ok 0, fun _ => .ok 0, fun _ => .ok 0, fun _ _ => .ok 0, .ok 0⟩
      (List.range 49) (List.replicate 64 1) 0 (fun _ => List.replicate 64 0)
      (List.replicate 8 0) (List.replicate 8 0)
      ⟨List.replicate 8 0, List.replicate 8 0⟩ = .error .panic ∧
    readCoefficientBlock false true false
      ⟨.ok 0, fun _ => .ok 0, fun _ => .ok 1, fun _ _ => .ok 0, .ok 0⟩
      (List.range 49) ((List.replicate 64 1).set 8 0) 1
      (fun _ => List.replicate 64 0) (List.replicate 8 0) (List.replicate 8 0)
      ⟨List.replicate 8 0, List.replicate 8 0⟩ = .error .panic :=
  ⟨rfl, rfl⟩

/-- C3 (amended): provided `q0 ≠ 0` and the 14 transposed edge quantization
entries (coordinates 1..7 and 8, 16, ..., 56) are nonzero — otherwise the
DC-prediction division (see C6) resp. the LAK-prior division of
`decode_one_edge` can panic — `read_coefficient_block` returns the
StreamInconsistent error value exactly when the decoded stream fails a
self-consistency check: the decoded `num_non_zeros_7x7` exceeds 49, the 7x7
zigzag scan finishes with a nonzero remaining non-zero count, or an edge
scan finishes with a nonzero remaining edge non-zero count; it does not
panic, and on every other input it returns Ok or propagates an upstream I/O
error. -/
theorem read_coefficient_block_errors (lp ap use16 : Bool) (o : ModelOracle)
    (coords49 : List ℕ) (qtT : List ℤ) (q0 : ℤ)
    (idctF : List ℤ → List ℤ) (hPred vPred : List ℤ) (nd : NeighborData)
    (hq : q0 ≠ 0)
    (hqt : ∀ k, k < 8 → 1 ≤ k →
      qtT.getD k 0 ≠ 0 ∧ qtT.getD (8 * k) 0 ≠ 0) :
    (readCoefficientBlock lp ap use16 o coords49 qtT q0 idctF hPred vPred nd
        = .error .streamInconsistent ↔
      siCondition lp ap o coords49 qtT hPred vPred) ∧
      readCoefficientBlock lp ap use16 o coords49 qtT q0 idctF hPred vPred nd
        ≠ .error .panic ∧
      (readCoefficientBlock lp ap use16 o coords49 qtT q0 idctF hPred vPred nd
          = .error .io ∨
        readCoefficientBlock lp ap use16 o coords49 qtT q0 idctF hPred vPred
          nd = .error .streamInconsistent ∨
        ∃ res, readCoefficientBlock lp ap use16 o coords49 qtT q0 idctF hPred
          vPred nd = .ok res) := by
  rcases readCoefficientBlock_trichotomy lp ap use16 o coords49 qtT q0 idctF
      hPred vPred nd hq hqt with ⟨hv, hs⟩ | ⟨hv, hs⟩ | ⟨res, hv, hs⟩
  · exact ⟨⟨fun h => by rw [hv] at h; simp at h, fun h => (hs h).elim⟩,
      by rw [hv]; simp, Or.inl hv⟩
  · exact ⟨⟨fun _ => hs, fun _ => hv⟩, by rw [hv]; simp, Or.inr (Or.inl hv)⟩
  · exact ⟨⟨fun h => by rw [hv] at h; simp at h, fun h => (hs h).elim⟩,
      by rw [hv]; simp, Or.inr (Or.inr ⟨res, hv⟩)⟩

/-- Witness for the amended C3 at a concrete all-zeros oracle with `q0 = 1`
and an all-ones quantization table. -/
theorem read_coefficient_block_errors_witness :
    ((1 : ℤ) ≠ 0 ∧
      (∀ k, k < 8 → 1 ≤ k →
        (List.replicate 64 (1 : ℤ)).getD k 0 ≠ 0 ∧
          (List.replicate 64 (1 : ℤ)).getD (8 * k) 0 ≠ 0)) ∧
      ((readCoefficientBlock false false false
          ⟨.ok 0, fun _ => .ok 0, fun _ => .ok 0, fun _ _ => .ok 0, .ok 0⟩
          (List.range 49) (List.replicate 64 1) 1 (fun _ => List.replicate 64 0)
          (List.replicate 8 0) (List.replicate 8 0)
          ⟨List.replicate 8 0, List.replicate 8 0⟩
            = .error .streamInconsistent ↔
          siCondition false false
            ⟨.ok 0, fun _ => .ok 0, fun _ => .ok 0, fun _ _ => .ok 0, .ok 0⟩
            (List.range 49) (List.replicate 64 1) (List.replicate 8 0)
            (List.replicate 8 0)) ∧
        readCoefficientBlock false false false
          ⟨.ok 0, fun _ => .ok 0, fun _ => .ok 0, fun _ _ => .ok 0, .ok 0⟩
          (List.range 49) (List.replicate 64 1) 1 (fun _ => List.replicate 64 0)
          (List.replicate 8 0) (List.replicate 8 0)
          ⟨List.replicate 8 0, List.replicate 8 0⟩ ≠ .error .panic ∧
        (readCoefficientBlock false false false
            ⟨.ok 0, fun _ => .ok 0, fun _ => .ok 0, fun _ _ => .ok 0, .ok 0⟩
            (List.range 49) (List.replicate 64 1) 1
            (fun _ => List.replicate 64 0) (List.replicate 8 0)
            (List.replicate 8 0)
            ⟨List.replicate 8 0, List.replicate 8 0⟩ = .error .io ∨
          readCoefficientBlock false false false
            ⟨.ok 0, fun _ => .ok 0, fun _ => .ok 0, fun _ _ => .ok 0, .ok 0⟩
            (List.range 49) (List.replicate 64 1) 1
            (fun _ => List.replicate 64 0) (List.replicate 8 0)
            (List.replicate 8 0)
            ⟨List.replicate 8 0, List.replicate 8 0⟩
              = .error .streamInconsistent ∨
          ∃ res, readCoefficientBlock false false false
            ⟨.ok 0, fun _ => .ok 0, fun _ => .ok 0, fun _ _ => .ok 0, .ok 0⟩
            (List.range 49) (List.replicate 64 1) 1
            (fun _ => List.replicate 64 0) (List.replicate 8 0)
            (List.replicate 8 0)
            ⟨List.replicate 8 0, List.replicate 8 0⟩ = .ok res)) :=
  ⟨⟨by decide, by decide⟩,
    read_coefficient_block_errors false false false
      ⟨.ok 0, fun _ => .ok 0, fun _ => .ok 0, fun _ _ => .ok 0, .ok 0⟩
      (List.range 49) (List.replicate 64 1) 1 (fun _ => List.replicate 64 0)
      (List.replicate 8 0) (List.replicate 8 0)
      ⟨List.replicate 8 0, List.replicate 8 0⟩ (by decide) (by decide)⟩
